import Mathlib

/-!
Verification of the flash-flood journaling engine (HumanCellAtlas/flash-flood).

Python strings are embedded as `List Char`; an S3 bucket is embedded as an
association list from keys to the string held in the object's user metadata,
kept in lexical key order (S3 lists keys lexicographically).  Fallible Python
code (unpacking errors, `int()` parse errors, `list.remove` on a missing
element) is embedded as `Option`-returning functions.
-/

namespace FF

/-- A Python string, embedded as its list of characters. -/
abbrev Str := List Char

/-- The id-part delimiter `"--"` (`DELIMITER` in the source). -/
def dd : Str := ['-', '-']

/-- The tombstone suffix `".dead"` (`TOMBSTONE_SUFFIX` in `identifiers.py`). -/
def deadStr : Str := ['.', 'd', 'e', 'a', 'd']

/-- Python `s.endswith(".dead")`. -/
def endsDead (s : Str) : Bool := deadStr.isSuffixOf s

/-- Python `s.rsplit("--", 1)`: split `s` at the rightmost occurrence of
`"--"`, returning the parts before and after it; `none` when `"--"` does not
occur (in which case Python's two-way unpacking of the result fails). -/
def rsplit1? : Str → Option (Str × Str)
  | [] => none
  | c :: rest =>
    match rsplit1? rest with
    | some (a, b) => some (c :: a, b)
    | none => if c = '-' ∧ rest.head? = some '-' then some ([], rest.tail) else none

/-- Python `s.split("--")`: split at every occurrence of `"--"`, scanning
left to right, non-overlapping. -/
def splitDD : Str → List Str
  | [] => [[]]
  | [c] => [[c]]
  | c :: c2 :: rest =>
    if c = '-' ∧ c2 = '-' then [] :: splitDD rest
    else
      match splitDD (c2 :: rest) with
      | p :: ps => (c :: p) :: ps
      | [] => []

/-- Python `s.replace(".dead", "")`: remove every (left-to-right,
non-overlapping) occurrence of `".dead"` from `s`. -/
def dropDead : Str → Str
  | c1 :: c2 :: c3 :: c4 :: c5 :: rest =>
    if c1 = '.' ∧ c2 = 'd' ∧ c3 = 'e' ∧ c4 = 'a' ∧ c5 = 'd' then dropDead rest
    else c1 :: dropDead (c2 :: c3 :: c4 :: c5 :: rest)
  | s => s

/-- Value of a digit character. -/
def digitVal (c : Char) : Nat := c.toNat - 48

/-- Python `int(s)` on a string of decimal digits: `none` when `s` is empty
or contains a non-digit character (Python raises `ValueError` there). -/
def parseNat? (s : Str) : Option Nat :=
  if s ≠ [] ∧ s.all Char.isDigit then some (s.foldl (fun a c => 10 * a + digitVal c) 0)
  else none

/-- Little-endian decimal digits of `n`, with explicit fuel (`fuel ≥ n`
suffices); `[]` for `0`. -/
def digitsRev : Nat → Nat → List Nat
  | 0, _ => []
  | _ + 1, 0 => []
  | f + 1, n + 1 => ((n + 1) % 10) :: digitsRev f ((n + 1) / 10)

/-- The digit character for `d < 10`. -/
def digitCh (d : Nat) : Char := Char.ofNat (48 + d)

/-- Decimal representation of a natural number (Python `"%i" % n`). -/
def natStr (n : Nat) : Str :=
  match digitsRev n n with
  | [] => ['0']
  | ds => (ds.reverse).map digitCh

/-- Python `"%010i" % n`: decimal representation of `n` left-padded with
zeros to (at least) width 10. -/
def pad10 (n : Nat) : Str :=
  List.replicate (10 - (natStr n).length) '0' ++ natStr n

/-! ### Basic string lemmas -/

/-- `rsplit1?` finds nothing in a string with no `"--"` occurrence. -/
theorem rsplit1?_eq_none {s : Str} (h : ¬ dd <:+: s) : rsplit1? s = none := by
  induction s with
  | nil => rfl
  | cons c rest ih =>
    have hrest : ¬ dd <:+: rest := fun hi => h (List.infix_cons hi)
    rw [rsplit1?, ih hrest]
    rw [if_neg]
    rintro ⟨hc, hh⟩
    rcases rest with _ | ⟨c2, rest'⟩
    · simp at hh
    · simp at hh
      exact h ⟨[], rest', by simp [dd, hc, hh]⟩

/-- `rsplit1?` splits at the separator before a suffix that contains no
`"--"` and does not start with `'-'`. -/
theorem rsplit1?_append {a w : Str} (hw : ¬ dd <:+: w) (hh : w.head? ≠ some '-') :
    rsplit1? (a ++ dd ++ w) = some (a, w) := by
  induction a with
  | nil =>
    have h1 : ¬ dd <:+: ('-' :: w) := by
      intro hi
      rcases List.infix_cons_iff.mp hi with hp | hi'
      · rcases hp with ⟨t, ht⟩
        rcases w with _ | ⟨c, w'⟩
        · simp [dd] at ht
        · simp [dd] at ht
          exact hh (by simp [ht.1.symm])
      · exact hw hi'
    show rsplit1? ('-' :: '-' :: w) = some ([], w)
    rw [rsplit1?, rsplit1?_eq_none h1, if_pos (by simp)]
    simp
  | cons c a' ih =>
    show rsplit1? (c :: (a' ++ dd ++ w)) = some (c :: a', w)
    rw [rsplit1?, ih]

/-- Step equation for `splitDD` when the head is not where an occurrence of
`"--"` starts. -/
theorem splitDD_cons {c : Char} {rest : Str} (h : ¬ dd <+: (c :: rest)) :
    splitDD (c :: rest) =
      match splitDD rest with
      | p :: ps => (c :: p) :: ps
      | [] => [] := by
  rcases rest with _ | ⟨c2, rest'⟩
  · rfl
  · rw [splitDD, if_neg]
    rintro ⟨h1, h2⟩
    exact h ⟨rest', by simp [dd, h1, h2]⟩

/-- `splitDD` never returns the empty list of parts. -/
theorem splitDD_ne_nil (s : Str) : splitDD s ≠ [] := by
  induction s with
  | nil => simp [splitDD]
  | cons c rest ih =>
    rcases rest with _ | ⟨c2, rest'⟩
    · simp [splitDD]
    · rw [splitDD]
      split
      · simp
      · rcases hx : splitDD (c2 :: rest') with _ | ⟨p, ps⟩
        · exact absurd hx ih
        · simp [hx]

/-- `splitDD` of a string with no `"--"` occurrence is that single part. -/
theorem splitDD_eq_single {s : Str} (h : ¬ dd <:+: s) : splitDD s = [s] := by
  induction s with
  | nil => rfl
  | cons c rest ih =>
    have hrest : ¬ dd <:+: rest := fun hi => h (List.infix_cons hi)
    rw [splitDD_cons (fun hp => h hp.isInfix), ih hrest]

/-- `splitDD` peels a leading part that contains no `"--"` and does not end
with `'-'`. -/
theorem splitDD_append {p rest : Str} (hp : ¬ dd <:+: p) (hl : p.getLast? ≠ some '-') :
    splitDD (p ++ dd ++ rest) = p :: splitDD rest := by
  induction p with
  | nil =>
    show splitDD ('-' :: '-' :: rest) = [] :: splitDD rest
    rw [splitDD, if_pos (by simp)]
  | cons c p' ih =>
    have hp' : ¬ dd <:+: p' := fun hi => hp (List.infix_cons hi)
    have hstep : ¬ dd <+: (c :: (p' ++ dd ++ rest)) := by
      rintro ⟨t, ht⟩
      simp only [dd, List.cons_append, List.nil_append, List.cons.injEq] at ht
      obtain ⟨hc, hrest2⟩ := ht
      rcases p' with _ | ⟨c2, p''⟩
      · simp at hl
        exact hl hc.symm
      · simp only [List.cons_append, List.cons.injEq] at hrest2
        exact hp ⟨[], p'', by simp [dd, ← hc, ← hrest2.1]⟩
    have hl' : p'.getLast? ≠ some '-' := by
      rcases p' with _ | ⟨c2, p''⟩
      · simp
      · rwa [List.getLast?_cons_cons] at hl
    show splitDD (c :: (p' ++ dd ++ rest)) = (c :: p') :: splitDD rest
    rw [splitDD_cons hstep, ih hp' hl']

/-! ### Decimal formatting and parsing -/

/-- Value of a little-endian digit list. -/
def valRev : List Nat → Nat
  | [] => 0
  | d :: ds => d + 10 * valRev ds

theorem digitsRev_val : ∀ f n, n ≤ f → valRev (digitsRev f n) = n := by
  intro f
  induction f with
  | zero => intro n hn; interval_cases n; rfl
  | succ f ih =>
    intro n hn
    match n with
    | 0 => rfl
    | m + 1 =>
      rw [digitsRev, valRev]
      have hdiv : (m + 1) / 10 ≤ f := by
        have := Nat.div_lt_self (Nat.succ_pos m) (by omega : 1 < 10)
        omega
      rw [ih _ hdiv]
      omega

theorem digitsRev_lt : ∀ f n d, d ∈ digitsRev f n → d < 10 := by
  intro f
  induction f with
  | zero => intro n d hd; simp [digitsRev] at hd
  | succ f ih =>
    intro n d hd
    match n with
    | 0 => simp [digitsRev] at hd
    | m + 1 =>
      rw [digitsRev] at hd
      rcases List.mem_cons.mp hd with h | h
      · subst h; exact Nat.mod_lt _ (by omega)
      · exact ih _ _ h

theorem digitsRev_len : ∀ f n k, n < 10 ^ k → (digitsRev f n).length ≤ k := by
  intro f
  induction f with
  | zero => intro n k _; simp [digitsRev]
  | succ f ih =>
    intro n k hn
    match n with
    | 0 => simp [digitsRev]
    | m + 1 =>
      match k with
      | 0 => simp at hn
      | j + 1 =>
        rw [digitsRev, List.length_cons]
        have : (m + 1) / 10 < 10 ^ j := by
          rw [Nat.div_lt_iff_lt_mul (by omega : 0 < 10)]
          calc m + 1 < 10 ^ (j + 1) := hn
          _ = 10 ^ j * 10 := by rw [pow_succ]
        exact Nat.succ_le_succ (ih _ _ this)

theorem digitVal_digitCh : ∀ d < 10, digitVal (digitCh d) = d := by decide

theorem isDigit_digitCh : ∀ d < 10, (digitCh d).isDigit = true := by decide

/-- The folding step of `parseNat?`. -/
def parseStep (a : Nat) (c : Char) : Nat := 10 * a + digitVal c

theorem foldl_digits (ds : List Nat) (hds : ∀ d ∈ ds, d < 10) (acc : Nat) :
    List.foldl parseStep acc ((ds.reverse).map digitCh) = acc * 10 ^ ds.length + valRev ds := by
  induction ds generalizing acc with
  | nil => simp [valRev]
  | cons d tl ih =>
    have hd : d < 10 := hds d (by simp)
    have htl : ∀ x ∈ tl, x < 10 := fun x hx => hds x (by simp [hx])
    rw [List.reverse_cons, List.map_append, List.foldl_append]
    rw [ih htl]
    simp only [List.map_cons, List.map_nil, List.foldl_cons, List.foldl_nil, parseStep]
    rw [digitVal_digitCh d hd, valRev, List.length_cons]
    ring

theorem natStr_ne_nil (n : Nat) : natStr n ≠ [] := by
  rw [natStr]
  split
  · simp
  · rename_i ds hne
    rcases hx : digitsRev n n with _ | ⟨d, ds'⟩
    · exact absurd hx hne
    · simp [hx]

theorem natStr_all_digits (n : Nat) : ∀ c ∈ natStr n, c.isDigit = true := by
  intro c hc
  rw [natStr] at hc
  revert hc
  split
  · intro hc; simp at hc; subst hc; decide
  · intro hc
    rcases List.mem_map.mp (by simpa using hc) with ⟨d, hd, rfl⟩
    exact isDigit_digitCh d (digitsRev_lt n n d hd)

theorem foldl_natStr (n : Nat) : List.foldl parseStep 0 (natStr n) = n := by
  have hval : valRev (digitsRev n n) = n := digitsRev_val n n le_rfl
  rw [natStr]
  rcases hx : digitsRev n n with _ | ⟨d, ds⟩
  · rw [hx] at hval
    simp [valRev] at hval
    simp [parseStep, digitVal, ← hval]
  · rw [hx] at hval
    have := foldl_digits (d :: ds) (fun x hx2 => digitsRev_lt n n x (by rw [hx]; exact hx2)) 0
    simpa [hval] using this

theorem foldl_zeros (k : Nat) : List.foldl parseStep 0 (List.replicate k '0') = 0 := by
  induction k with
  | zero => rfl
  | succ k ih => simpa [List.replicate_succ, parseStep, digitVal] using ih

/-- Python `int("%010i" % n) == n`: parsing the zero-padded decimal
representation recovers the number. -/
theorem parseNat?_pad10 (n : Nat) : parseNat? (pad10 n) = some n := by
  rw [parseNat?, if_pos]
  · congr 1
    show List.foldl parseStep 0 (List.replicate (10 - (natStr n).length) '0' ++ natStr n) = n
    rw [List.foldl_append, foldl_zeros, foldl_natStr]
  · constructor
    · simp [pad10]
      intro _
      exact natStr_ne_nil n
    · rw [List.all_eq_true]
      intro c hc
      rcases List.mem_append.mp hc with h | h
      · rw [List.eq_of_mem_replicate h]; decide
      · exact natStr_all_digits n c h

theorem pad10_inj {a b : Nat} (h : pad10 a = pad10 b) : a = b := by
  have := parseNat?_pad10 a
  rw [h, parseNat?_pad10 b] at this
  exact (Option.some.injEq _ _ ▸ this).symm

theorem pad10_all_digits (n : Nat) : ∀ c ∈ pad10 n, c.isDigit = true := by
  intro c hc
  rcases List.mem_append.mp hc with h | h
  · rw [List.eq_of_mem_replicate h]; decide
  · exact natStr_all_digits n c h

theorem pad10_length {n : Nat} (h : n < 10 ^ 10) : (pad10 n).length = 10 := by
  have hlen : (natStr n).length ≤ 10 := by
    rw [natStr]
    rcases hx : digitsRev n n with _ | ⟨d, ds⟩
    · simp
    · have := digitsRev_len n n 10 h
      rw [hx] at this
      simpa using this
  simp [pad10]
  omega

/-- A string of digit characters contains neither `'-'` nor an occurrence of
`"--"`. -/
theorem no_dash_of_digits {s : Str} (h : ∀ c ∈ s, c.isDigit = true) : '-' ∉ s := by
  intro hm
  have := h '-' hm
  simp at this

theorem no_dd_of_digits {s : Str} (h : ∀ c ∈ s, c.isDigit = true) : ¬ dd <:+: s := by
  intro hi
  exact no_dash_of_digits h (hi.mem (by simp [dd]))

theorem head?_ne_dash_of_digits {s : Str} (h : ∀ c ∈ s, c.isDigit = true) :
    s.head? ≠ some '-' := by
  intro hh
  rcases s with _ | ⟨c, s'⟩
  · simp at hh
  · simp at hh
    exact no_dash_of_digits h (by simp [hh])

/-! ### The S3 bucket model

An S3 bucket is a finite map from keys to objects; listing by prefix returns
keys in lexicographic byte order.  We model a bucket as an association list
from the key to the single user-metadata string the engine stores on each
object, maintained in lexical key order with unique keys; `putObj` is an
ordered insert-or-overwrite. -/

/-- Lexicographic byte order on keys (the S3 listing order). -/
def keyLt : Str → Str → Bool
  | [], [] => false
  | [], _ :: _ => true
  | _ :: _, [] => false
  | a :: as, b :: bs => if a < b then true else if a = b then keyLt as bs else false

/-- A bucket: keys with their user-metadata string, in lexical key order. -/
abbrev Bucket := List (Str × Str)

/-- `bucket.objects.filter(Prefix=p)`: the keys with prefix `p`, in listing
order. -/
def listPfxB (b : Bucket) (p : Str) : List Str :=
  (b.filter (fun kv => p.isPrefixOf kv.1)).map Prod.fst

/-- `bucket.Object(k).upload_fileobj(..., Metadata=...)`: insert or overwrite
the object at key `k`, keeping the lexical order. -/
def putObj : Bucket → Str → Str → Bucket
  | [], k, v => [(k, v)]
  | (k', v') :: rest, k, v =>
    if k = k' then (k, v) :: rest
    else if keyLt k k' then (k, v) :: (k', v') :: rest
    else (k', v') :: putObj rest k v

/-- `delete_keys(bucket, ks)`: batch-delete the listed keys. -/
def delObjs (b : Bucket) (ks : List Str) : Bucket :=
  b.filter (fun kv => ¬ kv.1 ∈ ks)

/-- `bucket.Object(k).metadata[...]`: the metadata of the object at `k`. -/
def getMeta : Bucket → Str → Option Str
  | [], _ => none
  | (k', v') :: rest, k => if k = k' then some v' else getMeta rest k

/-! ### Key index (`key_index.py`) -/

/-- The key under which revision objects of `lookup` live:
`f"{cls._pfx}/{lookup}"`. -/
def ixPfx (pfx lookup : Str) : Str := pfx ++ '/' :: lookup

/-- `BaseKeyIndex._lookup_keys`. -/
def lookupKeys (pfx : Str) (b : Bucket) (lookup : Str) : List Str :=
  listPfxB b (ixPfx pfx lookup)

/-- `BaseKeyIndex._revision_number_for_key`:
`int(key.rsplit(DELIMITER, 1)[1])`. -/
def revisionNumberForKey (key : Str) : Option Nat :=
  (rsplit1? key).bind fun ab => parseNat? ab.2

/-- The full key of a revision object:
`f"{cls._pfx}/{lookup}" + DELIMITER + "%010i" % rev`. -/
def mkRevKey (pfx lookup : Str) (rev : Nat) : Str :=
  ixPfx pfx lookup ++ dd ++ pad10 rev

/-- `BaseKeyIndex._put`: list the lookup prefix, compute the next revision
number, write the new revision object, and return the previously-listed
keys.  `none` when the deduced revision part fails to parse. -/
def kiPutRaw (pfx : Str) (b : Bucket) (lookup target : Str) :
    Option (Bucket × List Str) :=
  let keys := lookupKeys pfx b lookup
  let rev? : Option Nat :=
    match keys.getLast? with
    | some k => (revisionNumberForKey k).map (· + 1)
    | none => some 1
  rev?.map fun rev => (putObj b (mkRevKey pfx lookup rev) target, keys)

/-- `BaseKeyIndex.put`: `_put` then batch-delete the returned keys. -/
def kiPut (pfx : Str) (b : Bucket) (lookup target : Str) : Option Bucket :=
  (kiPutRaw pfx b lookup target).map fun br => delObjs br.1 br.2

/-- `BaseKeyIndex.put_batch`: `_put` each entry, collecting the keys to
delete, then batch-delete them in one call.  `acc` is the
`keys_to_delete` accumulator (initially `[]`). -/
def kiPutBatch (pfx : Str) (b : Bucket) :
    List (Str × Str) → List Str → Option Bucket
  | [], acc => some (delObjs b acc)
  | (lookup, target) :: rest, acc =>
    match kiPutRaw pfx b lookup target with
    | none => none
    | some (b', keys) => kiPutBatch pfx b' rest (acc ++ keys)

/-- `BaseKeyIndex.get`: metadata `target` of the last listed key, else
`None`. -/
def kiGet (pfx : Str) (b : Bucket) (lookup : Str) : Option Str :=
  match (lookupKeys pfx b lookup).getLast? with
  | some k => getMeta b k
  | none => none

/-- `BaseKeyIndex.delete`: batch-delete every key under the lookup prefix
(a no-op when the listing is empty, matching the `if keys:` guard). -/
def kiDelete (pfx : Str) (b : Bucket) (lookup : Str) : Bucket :=
  delObjs b (lookupKeys pfx b lookup)

/-! ### Bucket lemmas -/

theorem listPfxB_append (x y : Bucket) (p : Str) :
    listPfxB (x ++ y) p = listPfxB x p ++ listPfxB y p := by
  simp [listPfxB]

theorem mem_listPfxB {b : Bucket} {p k : Str} (h : k ∈ listPfxB b p) :
    p <+: k ∧ ∃ v, (k, v) ∈ b := by
  rcases List.mem_map.mp h with ⟨kv, hkv, rfl⟩
  rcases List.mem_filter.mp hkv with ⟨hmem, hpre⟩
  exact ⟨List.isPrefixOf_iff_prefix.mp (by simpa using hpre), kv.2, hmem⟩

theorem listPfxB_delObjs (b : Bucket) (S : List Str) (p : Str) :
    listPfxB (delObjs b S) p = (listPfxB b p).filter (fun k => ¬ k ∈ S) := by
  induction b with
  | nil => rfl
  | cons kv rest ih =>
    obtain ⟨k', v'⟩ := kv
    by_cases hS : k' ∈ S <;> by_cases hp : p.isPrefixOf k' = true <;>
      simp [delObjs, listPfxB, hS, hp] at ih ⊢ <;> simpa using ih

theorem putObj_decomp {b : Bucket} {k : Str} (v : Str)
    (h : ¬ k ∈ b.map Prod.fst) :
    ∃ l1 l2, b = l1 ++ l2 ∧ putObj b k v = l1 ++ (k, v) :: l2 := by
  induction b with
  | nil => exact ⟨[], [], rfl, rfl⟩
  | cons kv rest ih =>
    obtain ⟨k', v'⟩ := kv
    have hk : k ≠ k' := by
      intro hkk
      exact h (by simp [hkk])
    by_cases hlt : keyLt k k' = true
    · exact ⟨[], (k', v') :: rest, rfl, by simp [putObj, hk, hlt]⟩
    · obtain ⟨l1, l2, hb, hput⟩ := ih (fun hm => h (by simp at hm ⊢; tauto))
      exact ⟨(k', v') :: l1, l2, by simp [hb], by simp [putObj, hk, hlt, hput]⟩

theorem getMeta_putObj_self (b : Bucket) (k v : Str) :
    getMeta (putObj b k v) k = some v := by
  induction b with
  | nil => simp [putObj, getMeta]
  | cons kv rest ih =>
    obtain ⟨k', v'⟩ := kv
    by_cases hk : k = k'
    · simp [putObj, hk, getMeta]
    · by_cases hlt : keyLt k k' = true <;> simp [putObj, hk, hlt, getMeta, ih]

theorem getMeta_putObj_other {k k2 : Str} (b : Bucket) (v : Str) (h : k ≠ k2) :
    getMeta (putObj b k v) k2 = getMeta b k2 := by
  induction b with
  | nil => simp [putObj, getMeta, Ne.symm h]
  | cons kv rest ih =>
    obtain ⟨k', v'⟩ := kv
    by_cases hk : k = k'
    · subst hk
      simp [putObj, getMeta, Ne.symm h]
    · by_cases hlt : keyLt k k' = true <;>
        simp [putObj, hk, hlt, getMeta, Ne.symm h, ih]

theorem getMeta_delObjs {k : Str} (b : Bucket) {S : List Str} (h : ¬ k ∈ S) :
    getMeta (delObjs b S) k = getMeta b k := by
  induction b with
  | nil => rfl
  | cons kv rest ih =>
    obtain ⟨k', v'⟩ := kv
    by_cases hS : k' ∈ S
    · have hk : k ≠ k' := fun he => h (he ▸ hS)
      simp [delObjs, getMeta, hS, hk] at ih ⊢
      exact ih
    · by_cases hk : k = k' <;> simp [delObjs, getMeta, hS, hk] at ih ⊢
      exact ih

theorem listPfxB_putObj_frame {p k : Str} (b : Bucket) (v : Str)
    (h : ¬ p <+: k) :
    listPfxB (putObj b k v) p = listPfxB b p := by
  have hk : p.isPrefixOf k = false := by
    rcases hx : p.isPrefixOf k with _ | _
    · rfl
    · exact absurd (List.isPrefixOf_iff_prefix.mp hx) h
  induction b with
  | nil => simp [putObj, listPfxB, hk]
  | cons kv rest ih =>
    obtain ⟨k', v'⟩ := kv
    by_cases heq : k = k'
    · subst heq
      simp [putObj, listPfxB, hk]
    · by_cases hlt : keyLt k k' = true
      · simp [putObj, listPfxB, heq, hlt, hk]
      · have hstep : putObj ((k', v') :: rest) k v = (k', v') :: putObj rest k v := by
          simp [putObj, heq, hlt]
        rw [hstep]
        simp only [listPfxB] at ih ⊢
        rw [List.filter_cons, List.filter_cons]
        by_cases hp' : p.isPrefixOf k' = true <;> simp [hp', ih]

theorem filter_not_mem_eq_nil {l S : List Str} (h : ∀ k ∈ l, k ∈ S) :
    l.filter (fun k => ¬ k ∈ S) = [] := by
  rw [List.filter_eq_nil_iff]
  intro k hk
  simp [h k hk]

/-- Inserting a fresh key `k` with prefix `p`, then batch-deleting a key set
that contains all previously-listed `p`-keys but not `k`, leaves exactly
`[k]` listed under `p`. -/
theorem listPfxB_put_del {b : Bucket} {p k : Str} {S : List Str} (v : Str)
    (hsub : ∀ x ∈ listPfxB b p, x ∈ S) (hkS : ¬ k ∈ S) (hpk : p <+: k) :
    listPfxB (delObjs (putObj b k v) S) p = [k] := by
  have hknb : ¬ k ∈ b.map Prod.fst := by
    intro hm
    rcases List.mem_map.mp hm with ⟨⟨k0, v0⟩, hkv, hk0⟩
    simp only at hk0
    subst hk0
    refine hkS (hsub _ (List.mem_map.mpr ⟨(k0, v0), List.mem_filter.mpr ⟨hkv, ?_⟩, rfl⟩))
    simpa using List.isPrefixOf_iff_prefix.mpr hpk
  obtain ⟨l1, l2, hb, hput⟩ := putObj_decomp v hknb
  rw [listPfxB_delObjs, hput, listPfxB_append,
    show (k, v) :: l2 = [(k, v)] ++ l2 from rfl, listPfxB_append]
  have hself : listPfxB [(k, v)] p = [k] := by
    simp [listPfxB, List.isPrefixOf_iff_prefix.mpr hpk]
  rw [hself, List.filter_append, List.filter_append]
  have h1 : ∀ x ∈ listPfxB l1 p, x ∈ S := by
    intro x hx
    exact hsub x (by rw [hb, listPfxB_append]; exact List.mem_append_left _ hx)
  have h2 : ∀ x ∈ listPfxB l2 p, x ∈ S := by
    intro x hx
    exact hsub x (by rw [hb, listPfxB_append]; exact List.mem_append_right _ hx)
  rw [filter_not_mem_eq_nil h1, filter_not_mem_eq_nil h2]
  simp [hkS]

/-! ### Key index lemmas -/

theorem revisionNumberForKey_mkRevKey (pfx L : Str) (r : Nat) :
    revisionNumberForKey (mkRevKey pfx L r) = some r := by
  rw [revisionNumberForKey, mkRevKey,
    rsplit1?_append (no_dd_of_digits (pad10_all_digits r))
      (head?_ne_dash_of_digits (pad10_all_digits r))]
  exact parseNat?_pad10 r

theorem mkRevKey_inj {pfx L : Str} {a b : Nat} (h : mkRevKey pfx L a = mkRevKey pfx L b) :
    a = b := by
  rw [mkRevKey, mkRevKey, List.append_assoc, List.append_assoc] at h
  exact pad10_inj (List.append_cancel_left (List.append_cancel_left h))

theorem ixPfx_prefix_mkRevKey (pfx L : Str) (r : Nat) :
    ixPfx pfx L <+: mkRevKey pfx L r := by
  rw [mkRevKey, List.append_assoc]
  exact List.prefix_append _ _

/-- `ixPfx pfx L` is built by appending `L` to `pfx ++ "/"`. -/
theorem ixPfx_eq (pfx L : Str) : ixPfx pfx L = (pfx ++ ['/']) ++ L := by
  simp [ixPfx]

/-- When neither of two lookup strings is a prefix of the other, the revision
keys of one do not fall under the listing prefix of the other. -/
theorem not_ixPfx_prefix_mkRevKey {pfx L L' : Str} (r : Nat)
    (h1 : ¬ L <+: L') (h2 : ¬ L' <+: L) :
    ¬ ixPfx pfx L <+: mkRevKey pfx L' r := by
  intro hp
  have hp' : (pfx ++ ['/']) ++ L <+: (pfx ++ ['/']) ++ (L' ++ (dd ++ pad10 r)) := by
    simpa [mkRevKey, ixPfx_eq, List.append_assoc] using hp
  rw [List.prefix_append_right_inj] at hp'
  rcases List.prefix_or_prefix_of_prefix hp' (List.prefix_append L' _) with h | h
  · exact h1 h
  · exact h2 h

theorem mem_lookupKeys_pfx {pfx L k : Str} {b : Bucket}
    (h : k ∈ lookupKeys pfx b L) : ixPfx pfx L <+: k :=
  (mem_listPfxB h).1

theorem mkRevKey_not_mem_lookupKeys {pfx L L' : Str} {b : Bucket} (r : Nat)
    (h1 : ¬ L <+: L') (h2 : ¬ L' <+: L) :
    ¬ mkRevKey pfx L r ∈ lookupKeys pfx b L' := by
  intro hm
  have hpre := mem_lookupKeys_pfx hm
  have hp' : (pfx ++ ['/']) ++ L' <+: (pfx ++ ['/']) ++ (L ++ (dd ++ pad10 r)) := by
    simpa [mkRevKey, ixPfx_eq, List.append_assoc] using hpre
  rw [List.prefix_append_right_inj] at hp'
  rcases List.prefix_or_prefix_of_prefix hp' (List.prefix_append L _) with h | h
  · exact h2 h
  · exact h1 h

theorem le_getLast_of_chain'_lt {revs : List Nat} (h : List.Chain' (· < ·) revs) :
    ∀ r ∈ revs, r ≤ revs.getLast?.getD 0 := by
  have hp : List.Pairwise (· < ·) revs := List.chain'_iff_pairwise.mp h
  clear h
  induction revs with
  | nil => simp
  | cons a t ih =>
    intro r hr
    rcases List.mem_cons.mp hr with rfl | hrt
    · rcases t with _ | ⟨x, t'⟩
      · simp
      · rw [List.getLast?_cons_cons]
        have hlast : (x :: t').getLast? = some ((x :: t').getLast (by simp)) :=
          List.getLast?_eq_getLast _ _
        rw [hlast]
        have hmem : (x :: t').getLast (by simp) ∈ x :: t' := List.getLast_mem _
        have := (List.pairwise_cons.mp hp).1 _ hmem
        simpa using le_of_lt this
    · rcases t with _ | ⟨x, t'⟩
      · simp at hrt
      · rw [List.getLast?_cons_cons]
        exact ih (List.pairwise_cons.mp hp).2 r hrt

/-- The new revision key is not among the previously listed ones. -/
theorem mkRevKey_succ_not_mem {pfx L : Str} {revs : List Nat}
    (hsort : List.Chain' (· < ·) revs) :
    ¬ mkRevKey pfx L (revs.getLast?.getD 0 + 1) ∈ revs.map (fun r => mkRevKey pfx L r) := by
  intro hm
  rcases List.mem_map.mp hm with ⟨r, hr, heq⟩
  have := mkRevKey_inj heq
  have := le_getLast_of_chain'_lt hsort r hr
  omega

/-- `BaseKeyIndex._put` on a state whose listing under the lookup prefix is a
list of revision keys: it writes the fresh object at revision
(last-listed revision) + 1 — Python's `"%010i"` padding makes the lexically
last listed key the numerically largest revision — and returns the old
keys. -/
theorem kiPutRaw_eq (pfx L T : Str) (b : Bucket) (revs : List Nat)
    (hlist : lookupKeys pfx b L = revs.map (fun r => mkRevKey pfx L r)) :
    kiPutRaw pfx b L T =
      some (putObj b (mkRevKey pfx L (revs.getLast?.getD 0 + 1)) T, lookupKeys pfx b L) := by
  rw [kiPutRaw, hlist]
  rcases hrev : revs.getLast? with _ | r
  · rw [List.getLast?_eq_none_iff] at hrev
    subst hrev
    rfl
  · have hmap : (revs.map (fun r => mkRevKey pfx L r)).getLast? = some (mkRevKey pfx L r) := by
      rw [List.getLast?_map, hrev, Option.map_some']
    rw [hmap]
    simp only [revisionNumberForKey_mkRevKey, Option.map_some', Option.getD_some]

theorem not_ixPfx_prefix_of_other {pfx L L' x : Str} (h1 : ¬ L <+: L') (h2 : ¬ L' <+: L)
    (hx : ixPfx pfx L' <+: x) : ¬ ixPfx pfx L <+: x := by
  intro hLx
  rcases List.prefix_or_prefix_of_prefix hLx hx with h | h
  · rw [ixPfx_eq, ixPfx_eq, List.prefix_append_right_inj] at h
    exact h1 h
  · rw [ixPfx_eq, ixPfx_eq, List.prefix_append_right_inj] at h
    exact h2 h

theorem mem_listPfxB_of_mem {b : Bucket} {k p : Str} (hk : k ∈ b.map Prod.fst)
    (hp : p <+: k) : k ∈ listPfxB b p := by
  rcases List.mem_map.mp hk with ⟨⟨k0, v0⟩, hkv, h⟩
  simp only at h
  subst h
  exact List.mem_map.mpr ⟨(k0, v0), List.mem_filter.mpr
    ⟨hkv, by simpa using List.isPrefixOf_iff_prefix.mpr hp⟩, rfl⟩

theorem listPfxB_putObj_decomp {b : Bucket} {p k : Str} (v : Str) (hpk : p <+: k)
    (hknb : ¬ k ∈ b.map Prod.fst) :
    ∃ l1 l2, listPfxB b p = l1 ++ l2 ∧ listPfxB (putObj b k v) p = l1 ++ k :: l2 := by
  obtain ⟨bl1, bl2, hb, hput⟩ := putObj_decomp v hknb
  refine ⟨listPfxB bl1 p, listPfxB bl2 p, by rw [hb, listPfxB_append], ?_⟩
  rw [hput, show bl1 ++ (k, v) :: bl2 = bl1 ++ ([(k, v)] ++ bl2) from by simp,
    listPfxB_append, listPfxB_append]
  simp [listPfxB, List.isPrefixOf_iff_prefix.mpr hpk]

/-- Phase-2 invariant argument for `put_batch`: after the entry for lookup
`L` has written its revision object, processing the remaining entries (none
of which shares a prefix with `L`) and then batch-deleting the accumulated
keys leaves exactly the one new revision object under `L`'s prefix. -/
theorem kiPutBatch_phase2 (pfx L T : Str) (nrev : Nat) :
    ∀ (post : List (Str × Str)) (b : Bucket) (acc l1 l2 : List Str),
    (∀ e ∈ post, ¬ L <+: e.1 ∧ ¬ e.1 <+: L) →
    lookupKeys pfx b L = l1 ++ mkRevKey pfx L nrev :: l2 →
    getMeta b (mkRevKey pfx L nrev) = some T →
    (∀ x ∈ l1 ++ l2, x ∈ acc) →
    ¬ mkRevKey pfx L nrev ∈ l1 ++ l2 →
    ¬ mkRevKey pfx L nrev ∈ acc →
    ∀ b'', kiPutBatch pfx b post acc = some b'' →
      kiGet pfx b'' L = some T ∧ lookupKeys pfx b'' L = [mkRevKey pfx L nrev] := by
  intro post
  induction post with
  | nil =>
    intro b acc l1 l2 _ hlist hmeta hsub hnl hna b'' hb''
    rw [kiPutBatch] at hb''
    injection hb'' with hb''
    subst hb''
    have hlist' : lookupKeys pfx (delObjs b acc) L = [mkRevKey pfx L nrev] := by
      rw [lookupKeys, listPfxB_delObjs, ← lookupKeys, hlist, List.filter_append,
        List.filter_cons]
      rw [filter_not_mem_eq_nil (fun k hk => hsub k (List.mem_append_left _ hk)),
        filter_not_mem_eq_nil (fun k hk => hsub k (List.mem_append_right _ hk))]
      simp [hna]
    refine ⟨?_, hlist'⟩
    rw [kiGet, hlist']
    simpa using getMeta_delObjs b hna ▸ hmeta
  | cons e post ih =>
    intro b acc l1 l2 hprop hlist hmeta hsub hnl hna b'' hb''
    obtain ⟨L1, T1⟩ := e
    have hL1 : ¬ L <+: L1 ∧ ¬ L1 <+: L := hprop (L1, T1) (by simp)
    rw [kiPutBatch] at hb''
    rcases hraw : kiPutRaw pfx b L1 T1 with _ | ⟨b1, keys1⟩
    · rw [hraw] at hb''
      simp at hb''
    · rw [hraw] at hb''
      simp only at hb''
      rcases Option.map_eq_some'.mp hraw with ⟨rev, _, hfx⟩
      have hb1 : b1 = putObj b (mkRevKey pfx L1 rev) T1 := by
        have := congrArg Prod.fst hfx
        simpa using this.symm
      have hkeys1 : keys1 = lookupKeys pfx b L1 := by
        have := congrArg Prod.snd hfx
        simpa using this.symm
      have hne : mkRevKey pfx L1 rev ≠ mkRevKey pfx L nrev := by
        intro he
        exact not_ixPfx_prefix_mkRevKey rev hL1.1 hL1.2 (he ▸ ixPfx_prefix_mkRevKey pfx L nrev)
      refine ih b1 (acc ++ keys1) l1 l2 (fun x hx => hprop x (by simp [hx])) ?_ ?_ ?_ hnl ?_ b'' hb''
      · rw [hb1, lookupKeys, listPfxB_putObj_frame b T1
          (not_ixPfx_prefix_mkRevKey rev hL1.1 hL1.2), ← lookupKeys, hlist]
      · rw [hb1, getMeta_putObj_other b T1 hne]
        exact hmeta
      · intro x hx
        exact List.mem_append_left _ (hsub x hx)
      · rw [List.mem_append]
        rintro (h | h)
        · exact hna h
        · rw [hkeys1] at h
          exact mkRevKey_not_mem_lookupKeys nrev hL1.1 hL1.2 h

/-- Phase-1 invariant argument for `put_batch`: the entries before `L`'s own
(no lookup sharing a prefix with `L`) leave `L`'s listing untouched and only
accumulate keys outside `L`'s prefix. -/
theorem kiPutBatch_phase1 (pfx L T : Str) (revs : List Nat)
    (hsort : List.Chain' (· < ·) revs) :
    ∀ (pre : List (Str × Str)) (b : Bucket) (acc : List Str) (post : List (Str × Str)),
    (∀ e ∈ pre ++ post, ¬ L <+: e.1 ∧ ¬ e.1 <+: L) →
    lookupKeys pfx b L = revs.map (fun r => mkRevKey pfx L r) →
    (∀ k ∈ acc, ¬ ixPfx pfx L <+: k) →
    ∀ b'', kiPutBatch pfx b (pre ++ (L, T) :: post) acc = some b'' →
      kiGet pfx b'' L = some T ∧
      lookupKeys pfx b'' L = [mkRevKey pfx L (revs.getLast?.getD 0 + 1)] := by
  intro pre
  induction pre with
  | nil =>
    intro b acc post hprop hlist hacc b'' hb''
    simp only [List.nil_append] at hb''
    rw [kiPutBatch, kiPutRaw_eq pfx L T b revs hlist] at hb''
    simp only at hb''
    set nk := mkRevKey pfx L (revs.getLast?.getD 0 + 1) with hnk
    have hnmem : ¬ nk ∈ lookupKeys pfx b L := by
      rw [hlist]
      exact mkRevKey_succ_not_mem hsort
    have hknb : ¬ nk ∈ b.map Prod.fst := fun hm =>
      hnmem (mem_listPfxB_of_mem hm (ixPfx_prefix_mkRevKey pfx L _))
    obtain ⟨l1, l2, hsplit, hput⟩ :=
      listPfxB_putObj_decomp (b := b) T (ixPfx_prefix_mkRevKey pfx L _) hknb
    refine kiPutBatch_phase2 pfx L T _ post _ _ l1 l2
      (fun x hx => hprop x (by simp [hx])) hput (getMeta_putObj_self b nk T) ?_ ?_ ?_ b'' hb''
    · intro x hx
      refine List.mem_append_right _ ?_
      rw [lookupKeys, hsplit]
      exact hx
    · rw [← hsplit, ← lookupKeys]
      exact hnmem
    · rw [List.mem_append]
      rintro (h | h)
      · exact hacc nk h (ixPfx_prefix_mkRevKey pfx L _)
      · exact hnmem h
  | cons e pre ih =>
    intro b acc post hprop hlist hacc b'' hb''
    obtain ⟨L1, T1⟩ := e
    have hL1 : ¬ L <+: L1 ∧ ¬ L1 <+: L := hprop (L1, T1) (by simp)
    rw [List.cons_append, kiPutBatch] at hb''
    rcases hraw : kiPutRaw pfx b L1 T1 with _ | ⟨b1, keys1⟩
    · rw [hraw] at hb''
      simp at hb''
    · rw [hraw] at hb''
      simp only at hb''
      rcases Option.map_eq_some'.mp hraw with ⟨rev, _, hfx⟩
      have hb1 : b1 = putObj b (mkRevKey pfx L1 rev) T1 := by
        have := congrArg Prod.fst hfx
        simpa using this.symm
      have hkeys1 : keys1 = lookupKeys pfx b L1 := by
        have := congrArg Prod.snd hfx
        simpa using this.symm
      refine ih b1 (acc ++ keys1) post (fun x hx => hprop x (by simp at hx ⊢; tauto)) ?_ ?_ b'' hb''
      · rw [hb1, lookupKeys, listPfxB_putObj_frame b T1
          (not_ixPfx_prefix_mkRevKey rev hL1.1 hL1.2), ← lookupKeys, hlist]
      · intro k hk
        rcases List.mem_append.mp hk with h | h
        · exact hacc k h
        · rw [hkeys1] at h
          exact not_ixPfx_prefix_of_other hL1.1 hL1.2 (mem_lookupKeys_pfx h)

/-- Generalised `_put` computation: whatever the lexically last listed key
is, the new revision is its parsed revision number plus one. -/
theorem kiPutRaw_eq_of_last (pfx L T : Str) (b : Bucket) {k0 : Str} {r0 : Nat}
    (hlast : (lookupKeys pfx b L).getLast? = some k0)
    (hparse : revisionNumberForKey k0 = some r0) :
    kiPutRaw pfx b L T = some (putObj b (mkRevKey pfx L (r0 + 1)) T, lookupKeys pfx b L) := by
  rw [kiPutRaw]
  simp only [hlast, hparse, Option.map_some']

theorem ixPfx_mono {L1 L2 : Str} (pfx : Str) (h : L1 <+: L2) :
    ixPfx pfx L1 <+: ixPfx pfx L2 := by
  rw [ixPfx_eq, ixPfx_eq, List.prefix_append_right_inj]
  exact h

theorem not_mem_map_delObjs {b0 : Bucket} {S : List Str} {k : Str} (hk : k ∈ S) :
    ¬ k ∈ (delObjs b0 S).map Prod.fst := by
  intro hm
  rcases List.mem_map.mp hm with ⟨⟨k0, v0⟩, hkv, h⟩
  simp only at h
  subst h
  have := List.mem_filter.mp hkv
  simp [hk] at this

/-- **C2.** For every lookup key `L` and target `T`, on a state whose listing
under `L`'s prefix consists exactly of revision objects of `L` with
(numerically, hence — via the `"%010i"` padding — lexically) ascending
revision numbers, with a single writer and no other lookup key sharing a
prefix with `L`: `put(L, T)` writes the new object at revision
(previous max REV, or 0) + 1 and then batch-deletes exactly the
previously listed keys; immediately afterwards — and likewise after any
`put_batch` whose entries include `L → T` among prefix-unrelated lookups —
`get(L)` returns `T` and exactly one revision object remains under `L`'s
prefix. -/
theorem keyIndex_put_then_get (pfx L T : Str) (b : Bucket) (revs : List Nat)
    (hlist : lookupKeys pfx b L = revs.map (fun r => mkRevKey pfx L r))
    (hsort : List.Chain' (· < ·) revs) :
    (∀ r ∈ revs, r ≤ revs.getLast?.getD 0) ∧
    kiPut pfx b L T =
      some (delObjs (putObj b (mkRevKey pfx L (revs.getLast?.getD 0 + 1)) T)
        (lookupKeys pfx b L)) ∧
    (∀ b', kiPut pfx b L T = some b' →
      kiGet pfx b' L = some T ∧
      lookupKeys pfx b' L = [mkRevKey pfx L (revs.getLast?.getD 0 + 1)]) ∧
    (∀ pre post b'',
      (∀ e ∈ pre ++ post, ¬ L <+: e.1 ∧ ¬ e.1 <+: L) →
      kiPutBatch pfx b (pre ++ (L, T) :: post) [] = some b'' →
      kiGet pfx b'' L = some T ∧
      lookupKeys pfx b'' L = [mkRevKey pfx L (revs.getLast?.getD 0 + 1)]) := by
  set nk := mkRevKey pfx L (revs.getLast?.getD 0 + 1) with hnk
  have hput : kiPut pfx b L T = some (delObjs (putObj b nk T) (lookupKeys pfx b L)) := by
    rw [kiPut, kiPutRaw_eq pfx L T b revs hlist]
    rfl
  have hnmem : ¬ nk ∈ lookupKeys pfx b L := by
    rw [hlist]
    exact mkRevKey_succ_not_mem hsort
  refine ⟨le_getLast_of_chain'_lt hsort, hput, ?_, ?_⟩
  · intro b' hb'
    rw [hput] at hb'
    injection hb' with hb'
    subst hb'
    have hlist' :
        lookupKeys pfx (delObjs (putObj b nk T) (lookupKeys pfx b L)) L = [nk] := by
      rw [lookupKeys]
      exact listPfxB_put_del T (fun x hx => hx) hnmem (ixPfx_prefix_mkRevKey pfx L _)
    refine ⟨?_, hlist'⟩
    rw [kiGet, hlist']
    simp only [List.getLast?_singleton]
    rw [getMeta_delObjs _ hnmem, getMeta_putObj_self]
  · intro pre post b'' hprop hb''
    exact kiPutBatch_phase1 pfx L T revs hsort pre b [] post hprop hlist (by simp) b'' hb''

/-- **C10.** Key-index lookups match by string prefix, not key equality: when
`L1` is a proper prefix of `L2` and the index holds revision objects only
for `L2`, `get(L1)` returns `L2`'s current target instead of nil,
`delete(L1)` deletes `L2`'s revision objects, and `put(L1, T)` derives its
revision number from `L2`'s last key and batch-deletes `L2`'s revision
objects. -/
theorem keyIndex_prefix_alias (pfx L1 L2 T T2 : Str) (b : Bucket) (revs : List Nat) (r0 : Nat)
    (hpre : L1 <+: L2) (hne : L1 ≠ L2)
    (hlist : lookupKeys pfx b L1 = (revs ++ [r0]).map (fun r => mkRevKey pfx L2 r))
    (hmeta : getMeta b (mkRevKey pfx L2 r0) = some T2) :
    kiGet pfx b L1 = some T2 ∧
    lookupKeys pfx (kiDelete pfx b L1) L2 = [] ∧
    kiPut pfx b L1 T =
      some (delObjs (putObj b (mkRevKey pfx L1 (r0 + 1)) T) (lookupKeys pfx b L1)) ∧
    (∀ b', kiPut pfx b L1 T = some b' →
      ∀ k ∈ lookupKeys pfx b L1, ¬ k ∈ b'.map Prod.fst) := by
  have hlast : (lookupKeys pfx b L1).getLast? = some (mkRevKey pfx L2 r0) := by
    rw [hlist, List.getLast?_map, List.getLast?_concat, Option.map_some']
  have hsubL2 : ∀ k ∈ lookupKeys pfx b L2, k ∈ lookupKeys pfx b L1 := by
    intro k hk
    obtain ⟨hp2, v, hkv⟩ := mem_listPfxB hk
    exact mem_listPfxB_of_mem (List.mem_map.mpr ⟨(k, v), hkv, rfl⟩)
      ((ixPfx_mono pfx hpre).trans hp2)
  refine ⟨?_, ?_, ?_, ?_⟩
  · rw [kiGet, hlast]
    exact hmeta
  · rw [kiDelete, lookupKeys, listPfxB_delObjs, ← lookupKeys]
    exact filter_not_mem_eq_nil hsubL2
  · rw [kiPut, kiPutRaw_eq_of_last pfx L1 T b hlast (revisionNumberForKey_mkRevKey pfx L2 r0)]
    rfl
  · intro b' hb' k hk
    rw [kiPut, kiPutRaw_eq_of_last pfx L1 T b hlast (revisionNumberForKey_mkRevKey pfx L2 r0)]
      at hb'
    injection hb' with hb'
    subst hb'
    exact not_mem_map_delObjs hk

/-- Witness for C2 at a concrete one-revision state. -/
theorem keyIndex_put_then_get_witness :
    kiGet ['i'] [(mkRevKey ['i'] ['a'] 2, ['t'])] ['a'] = some ['t'] ∧
    lookupKeys ['i'] [(mkRevKey ['i'] ['a'] 2, ['t'])] ['a'] = [mkRevKey ['i'] ['a'] 2] := by
  have h := (keyIndex_put_then_get ['i'] ['a'] ['t'] [(mkRevKey ['i'] ['a'] 1, ['s'])] [1]
    (by decide) (List.chain'_singleton 1)).2.2.1
  exact h [(mkRevKey ['i'] ['a'] 2, ['t'])] (by decide)

/-- Witness for C10 at a concrete state holding one revision object for
`L2 = "ab"` and none for its proper prefix `L1 = "a"`. -/
theorem keyIndex_prefix_alias_witness :
    kiGet ['i'] [(mkRevKey ['i'] ['a', 'b'] 1, ['s'])] ['a'] = some ['s'] ∧
    lookupKeys ['i'] (kiDelete ['i'] [(mkRevKey ['i'] ['a', 'b'] 1, ['s'])] ['a'])
      ['a', 'b'] = [] ∧
    ¬ mkRevKey ['i'] ['a', 'b'] 1 ∈
      (delObjs (putObj [(mkRevKey ['i'] ['a', 'b'] 1, ['s'])] (mkRevKey ['i'] ['a'] 2) ['t'])
        (lookupKeys ['i'] [(mkRevKey ['i'] ['a', 'b'] 1, ['s'])] ['a'])).map Prod.fst := by
  have h := keyIndex_prefix_alias ['i'] ['a'] ['a', 'b'] ['t'] ['s']
    [(mkRevKey ['i'] ['a', 'b'] 1, ['s'])] [] 1 (by decide) (by decide) (by decide) (by decide)
  exact ⟨h.1, h.2.1, h.2.2.2 _ h.2.2.1 (mkRevKey ['i'] ['a', 'b'] 1) (by decide)⟩

/-! ### Dates and `DateRange` (`util.py`)

A `datetime` is embedded as `WithTop Nat`: the order embedding is all the
code uses, `⊤` plays `datetime.max` and `0` plays `datetime.min` (the
defaults for an omitted range end / start). -/

/-- A point in time. -/
abbrev Date := WithTop Nat

/-- `DateRange(start, end)`; the constructor's `assert start <= end` is
carried as a hypothesis where the theorems need it. -/
structure DateRange where
  start : Date
  end_ : Date
deriving DecidableEq

/-- `DateRange.overlaps`, translated branch for branch (each `elif` returns
`True`, so the chain is the disjunction of the four conditions). -/
def DateRange.overlaps (a b : DateRange) : Bool :=
  decide (b.start ≤ a.start ∧ a.end_ ≤ b.end_) ||
  decide (a.start ≤ b.start ∧ b.end_ ≤ a.end_) ||
  decide (a.start ≤ b.start ∧ b.start < a.end_) ||
  decide (a.start ≤ b.end_ ∧ b.end_ ≤ a.end_)

/-- `DateRange.contains`: `self.start < date and date <= self.end`. -/
def DateRange.containsD (r : DateRange) (d : Date) : Bool :=
  decide (r.start < d ∧ d ≤ r.end_)

/-- Membership of a date in `DateRange.future`:
`future` is the empty range when `end == datetime.max`, else
`DateRange(end, datetime.max)`, whose `contains` is
`end < d and d <= datetime.max`. -/
def DateRange.futureContains (r : DateRange) (d : Date) : Bool :=
  if r.end_ = ⊤ then false
  else decide (r.end_ < d) && decide (d ≤ (⊤ : Date))

/-- The closed intervals `[a.start, a.end]` and `[b.start, b.end]`
intersect. -/
def closedIntersects (a b : DateRange) : Prop :=
  ∃ d : Date, a.start ≤ d ∧ d ≤ a.end_ ∧ b.start ≤ d ∧ d ≤ b.end_

theorem closedIntersects_iff {a b : DateRange} (ha : a.start ≤ a.end_)
    (hb : b.start ≤ b.end_) :
    closedIntersects a b ↔ a.start ≤ b.end_ ∧ b.start ≤ a.end_ := by
  constructor
  · rintro ⟨d, h1, h2, h3, h4⟩
    exact ⟨le_trans h1 h4, le_trans h3 h2⟩
  · rintro ⟨h1, h2⟩
    exact ⟨max a.start b.start, le_max_left _ _, max_le ha h2, le_max_right _ _,
      max_le h1 hb⟩

theorem overlaps_eq_true_iff {a b : DateRange} :
    DateRange.overlaps a b = true ↔
      (b.start ≤ a.start ∧ a.end_ ≤ b.end_) ∨
      (a.start ≤ b.start ∧ b.end_ ≤ a.end_) ∨
      (a.start ≤ b.start ∧ b.start < a.end_) ∨
      (a.start ≤ b.end_ ∧ b.end_ ≤ a.end_) := by
  simp [DateRange.overlaps, or_assoc]

/-- **C3 (counterexample).** `overlaps` is not intersection of the closed
intervals, and is not commutative: for `A = [0, 5]` and `B = [5, 10]` the
intervals share the point `5`, yet `A.overlaps(B)` is `False` while
`B.overlaps(A)` is `True`. -/
theorem dateRange_overlaps_claim_false :
    DateRange.overlaps ⟨(0 : Nat), (5 : Nat)⟩ ⟨(5 : Nat), (10 : Nat)⟩ = false ∧
    closedIntersects ⟨(0 : Nat), (5 : Nat)⟩ ⟨(5 : Nat), (10 : Nat)⟩ ∧
    DateRange.overlaps ⟨(5 : Nat), (10 : Nat)⟩ ⟨(0 : Nat), (5 : Nat)⟩ = true := by
  refine ⟨by decide, ⟨(5 : Nat), by decide, by decide, by decide, by decide⟩, by decide⟩

/-- **C3 (amended).** For well-formed ranges (`start ≤ end`),
`A.overlaps(B)` returns true iff the closed intervals intersect *except* in
the single boundary configuration `A.start < B.start = A.end < B.end`
(where the intervals touch in exactly the point `B.start` but `overlaps`
returns `False`); consequently `overlaps` is not commutative, failing
exactly on those pairs. -/
theorem dateRange_overlaps_characterisation (a b : DateRange)
    (ha : a.start ≤ a.end_) (hb : b.start ≤ b.end_) :
    DateRange.overlaps a b = true ↔
      (closedIntersects a b ∧
        ¬ (a.start < b.start ∧ b.start = a.end_ ∧ a.end_ < b.end_)) := by
  rw [overlaps_eq_true_iff, closedIntersects_iff ha hb]
  constructor
  · rintro (⟨h1, h2⟩ | ⟨h1, h2⟩ | ⟨h1, h2⟩ | ⟨h1, h2⟩)
    · exact ⟨⟨le_trans ha h2, le_trans h1 ha⟩, fun he => absurd he.1 (not_lt.mpr h1)⟩
    · exact ⟨⟨le_trans h1 hb, le_trans hb h2⟩, fun he => absurd he.2.2 (not_lt.mpr h2)⟩
    · exact ⟨⟨le_trans h1 hb, le_of_lt h2⟩, fun he => absurd he.2.1 (ne_of_lt h2)⟩
    · exact ⟨⟨h1, le_trans hb h2⟩, fun he => absurd he.2.2 (not_lt.mpr h2)⟩
  · rintro ⟨⟨h1, h2⟩, hne⟩
    by_cases hbs : b.start ≤ a.start
    · by_cases hae : a.end_ ≤ b.end_
      · exact Or.inl ⟨hbs, hae⟩
      · exact Or.inr (Or.inr (Or.inr ⟨h1, le_of_not_le hae⟩))
    · have hab : a.start ≤ b.start := le_of_lt (lt_of_not_le hbs)
      by_cases hbe : b.end_ ≤ a.end_
      · exact Or.inr (Or.inl ⟨hab, hbe⟩)
      · rcases lt_or_eq_of_le h2 with hlt | heq
        · exact Or.inr (Or.inr (Or.inl ⟨hab, hlt⟩))
        · exact absurd ⟨lt_of_not_le hbs, heq, lt_of_not_le hbe⟩ hne

/-- Witness for the amended C3 at concrete overlapping ranges. -/
theorem dateRange_overlaps_characterisation_witness :
    DateRange.overlaps ⟨(0 : Nat), (5 : Nat)⟩ ⟨(3 : Nat), (7 : Nat)⟩ = true :=
  (dateRange_overlaps_characterisation ⟨(0 : Nat), (5 : Nat)⟩ ⟨(3 : Nat), (7 : Nat)⟩
    (by decide) (by decide)).mpr
    ⟨⟨(3 : Nat), by decide, by decide, by decide, by decide⟩, by decide⟩

/-! ### `FlashFlood.replay` (`__init__.py`) -/

/-- An event record of a journal manifest, as `replay` reads it. -/
structure JEvent where
  eventId : Str
  timestamp : Date
deriving DecidableEq

/-- A stored journal as the engine's listing walk sees it: the start / end
dates parsed from the journal id, and the manifest's event list. -/
structure JManifest where
  jstart : Date
  jend : Date
  events : List JEvent
deriving DecidableEq

/-- Inner loop of `FlashFlood.replay` over one journal's events: yield the
events whose date is in the search range, break at the first event past
it. -/
def scanEvents (r : DateRange) : List JEvent → List (Str × Date)
  | [] => []
  | e :: es =>
    if r.containsD e.timestamp then (e.eventId, e.timestamp) :: scanEvents r es
    else if r.futureContains e.timestamp then []
    else scanEvents r es

/-- `FlashFlood._journal_ids`: walk the lexically ordered journal listing,
yield the journals whose date range overlaps the search range
(`journal_range in search_range`), and stop at the first journal starting
past the range. -/
def journalIds (r : DateRange) : List JManifest → List JManifest
  | [] => []
  | j :: js =>
    if DateRange.overlaps ⟨j.jstart, j.jend⟩ r then j :: journalIds r js
    else if r.futureContains j.jstart then []
    else journalIds r js

/-- `FlashFlood.replay(from_date, to_date)`: for each listed journal in
range, yield (event id, date) of each manifest event whose date lies in
`DateRange(from_date, to_date)`. -/
def replay (listing : List JManifest) (fromD toD : Date) : List (Str × Date) :=
  (journalIds ⟨fromD, toD⟩ listing).flatMap fun j => scanEvents ⟨fromD, toD⟩ j.events

/-- Well-formedness of a stored journal: its id dates bound and order its
manifest events (which hold for every journal the engine writes, as events
are stored in timestamp order with `start_ts`/`end_ts` the first/last
timestamps). -/
def JManifest.wf (j : JManifest) : Prop :=
  j.jstart ≤ j.jend ∧
  List.Pairwise (fun a b : JEvent => a.timestamp ≤ b.timestamp) j.events ∧
  ∀ e ∈ j.events, j.jstart ≤ e.timestamp ∧ e.timestamp ≤ j.jend

theorem mem_scanEvents {r : DateRange} {es : List JEvent} {p : Str × Date}
    (h : p ∈ scanEvents r es) :
    r.containsD p.2 = true ∧ ∃ e ∈ es, p = (e.eventId, e.timestamp) := by
  induction es with
  | nil => simp [scanEvents] at h
  | cons e es ih =>
    rw [scanEvents] at h
    split at h
    · rcases List.mem_cons.mp h with rfl | h'
      · exact ⟨by assumption, e, by simp⟩
      · rcases ih h' with ⟨h1, e', he', h2⟩
        exact ⟨h1, e', by simp [he'], h2⟩
    · split at h
      · simp at h
      · rcases ih h with ⟨h1, e', he', h2⟩
        exact ⟨h1, e', by simp [he'], h2⟩

theorem scanEvents_snd_sublist (r : DateRange) (es : List JEvent) :
    List.Sublist ((scanEvents r es).map Prod.snd) (es.map JEvent.timestamp) := by
  induction es with
  | nil => simp [scanEvents]
  | cons e es ih =>
    rw [scanEvents]
    split
    · simpa using ih.cons₂ e.timestamp
    · split
      · simp
      · exact ih.trans (List.sublist_cons_self _ _)

theorem journalIds_sublist (r : DateRange) (js : List JManifest) :
    List.Sublist (journalIds r js) js := by
  induction js with
  | nil => simp [journalIds]
  | cons j js ih =>
    rw [journalIds]
    split
    · exact ih.cons₂ j
    · split
      · simp
      · exact ih.trans (List.sublist_cons_self _ _)

theorem scanEvents_pairwise {j : JManifest} (r : DateRange) (hwf : j.wf) :
    List.Pairwise (fun x y : Str × Date => x.2 ≤ y.2) (scanEvents r j.events) := by
  have h1 : List.Pairwise (· ≤ ·) (j.events.map JEvent.timestamp) :=
    List.pairwise_map.mpr hwf.2.1
  have h2 : List.Pairwise (· ≤ ·) ((scanEvents r j.events).map Prod.snd) :=
    h1.sublist (scanEvents_snd_sublist r j.events)
  exact List.pairwise_map.mp h2

theorem scanEvents_bounds {j : JManifest} {r : DateRange} (hwf : j.wf)
    {p : Str × Date} (hp : p ∈ scanEvents r j.events) :
    j.jstart ≤ p.2 ∧ p.2 ≤ j.jend := by
  rcases (mem_scanEvents hp).2 with ⟨e, he, rfl⟩
  exact hwf.2.2 e he

theorem pairwise_flatMap_scan (r : DateRange) :
    ∀ js : List JManifest, (∀ j ∈ js, j.wf) →
    List.Pairwise (fun a b : JManifest => a.jend < b.jstart) js →
    List.Pairwise (fun x y : Str × Date => x.2 ≤ y.2)
      (js.flatMap fun j => scanEvents r j.events) := by
  intro js
  induction js with
  | nil => simp
  | cons j t ih =>
    intro hwf hsep
    rw [List.flatMap_cons]
    rw [List.pairwise_append]
    refine ⟨scanEvents_pairwise r (hwf j (by simp)), ih (fun x hx => hwf x (by simp [hx]))
      (List.pairwise_cons.mp hsep).2, ?_⟩
    intro x hx y hy
    rcases List.mem_flatMap.mp hy with ⟨j', hj', hy'⟩
    have h1 : x.2 ≤ j.jend := (scanEvents_bounds (hwf j (by simp)) hx).2
    have h2 : j.jend < j'.jstart := (List.pairwise_cons.mp hsep).1 j' hj'
    have h3 : j'.jstart ≤ y.2 := (scanEvents_bounds (hwf j' (by simp [hj'])) hy').1
    exact le_trans h1 (le_trans (le_of_lt h2) h3)

/-- **C1.** For every pair of dates `from < to` and every well-formed stored
journal listing (lexical listing order sorts journals by start date; events
within a journal are in timestamp order between the journal's id dates):
every event yielded by `replay(from_date, to_date)` has a date `d` with
`from < d ≤ to` — overlapping journals included, since the per-event range
filter is independent of journal selection — and, provided the stored
journals do not overlap in time, the events are yielded in non-decreasing
date order. -/
theorem replay_range_and_order (listing : List JManifest) (fromD toD : Date)
    (hft : fromD < toD)
    (hwf : ∀ j ∈ listing, j.wf)
    (hsorted : List.Pairwise (fun a b : JManifest => a.jstart ≤ b.jstart) listing) :
    (∀ p ∈ replay listing fromD toD, fromD < p.2 ∧ p.2 ≤ toD) ∧
    (List.Pairwise
        (fun a b : JManifest => a.jend < b.jstart ∨ b.jend < a.jstart) listing →
      List.Pairwise (fun x y : Str × Date => x.2 ≤ y.2)
        (replay listing fromD toD)) := by
  constructor
  · intro p hp
    rcases List.mem_flatMap.mp hp with ⟨j, _, hpj⟩
    have := (mem_scanEvents hpj).1
    rw [DateRange.containsD] at this
    exact of_decide_eq_true this
  · intro hdisj
    have hsep : List.Pairwise (fun a b : JManifest => a.jend < b.jstart) listing := by
      refine (hsorted.and hdisj).imp_of_mem ?_
      intro a b ha hb hab
      rcases hab.2 with h | h
      · exact h
      · have hbw : b.jstart ≤ b.jend := (hwf b hb).1
        exact absurd (lt_of_le_of_lt hbw (lt_of_lt_of_le h hab.1)) (lt_irrefl _)
    have hsub := journalIds_sublist ⟨fromD, toD⟩ listing
    exact pairwise_flatMap_scan _ _
      (fun j hj => hwf j (hsub.mem hj)) (hsep.sublist hsub)

/-- Witness for C1 at a concrete two-journal listing. -/
theorem replay_range_and_order_witness :
    ((0 : Date) < (1 : Date) ∧ (1 : Date) ≤ (10 : Date)) ∧
    List.Pairwise (fun x y : Str × Date => x.2 ≤ y.2)
      (replay [⟨(1 : Date), (1 : Date), [⟨['e', '1'], (1 : Date)⟩]⟩,
               ⟨(3 : Date), (3 : Date), [⟨['e', '3'], (3 : Date)⟩]⟩]
        (0 : Date) (10 : Date)) := by
  have hwf1 : (JManifest.mk (1 : Date) (1 : Date) [⟨['e', '1'], (1 : Date)⟩]).wf :=
    ⟨by decide, List.pairwise_singleton _ _, by
      intro e he
      rw [List.mem_singleton] at he
      subst he
      exact ⟨by decide, by decide⟩⟩
  have hwf2 : (JManifest.mk (3 : Date) (3 : Date) [⟨['e', '3'], (3 : Date)⟩]).wf :=
    ⟨by decide, List.pairwise_singleton _ _, by
      intro e he
      rw [List.mem_singleton] at he
      subst he
      exact ⟨by decide, by decide⟩⟩
  have h := replay_range_and_order
    [⟨(1 : Date), (1 : Date), [⟨['e', '1'], (1 : Date)⟩]⟩,
     ⟨(3 : Date), (3 : Date), [⟨['e', '3'], (3 : Date)⟩]⟩]
    (0 : Date) (10 : Date) (by decide)
    (by
      intro j hj
      rcases List.mem_cons.mp hj with rfl | hj'
      · exact hwf1
      · rcases List.mem_cons.mp hj' with rfl | h0
        · exact hwf2
        · simp at h0)
    (List.Pairwise.cons
      (by
        intro b hb
        rw [List.mem_singleton] at hb
        subst hb
        decide)
      (List.pairwise_singleton _ _))
  exact ⟨h.1 (['e', '1'], (1 : Date)) (by decide), h.2
    (List.Pairwise.cons
      (by
        intro b hb
        rw [List.mem_singleton] at hb
        subst hb
        exact Or.inl (by decide))
      (List.pairwise_singleton _ _))⟩

/-! ### `BaseJournal.updated` (`objects.py`) -/

/-- Blob bytes, abstractly. -/
abbrev Bytes := List Nat

/-- An event record of a journal manifest (`objects.py`): `event_id`,
`timestamp`, `offset`, `size`. -/
structure ERec where
  event_id : Str
  timestamp : Str
  offset : Nat
  size : Nat
deriving DecidableEq

/-- A journal: its manifest event records and its blob data.  (`blob_id` and
`version` are fresh random / clock values not involved in the claims
below.) -/
structure Journal where
  events : List ERec
  data : Bytes
deriving DecidableEq

/-- A `JournalUpdate` marker as `updated` consumes it: its action, with the
replacement bytes for an UPDATE. -/
inductive JUAction
  | update (data : Bytes)
  | delete
deriving DecidableEq

/-- `updates.get(event_id, None)` on the update mapping. -/
def lookupUpd : List (Str × JUAction) → Str → Option JUAction
  | [], _ => none
  | (k, a) :: rest, e => if e = k then some a else lookupUpd rest e

/-- The loop body of `BaseJournal.updated`: walking the events while reading
the body stream sequentially (`stream`), accumulating the new blob
(`nd`).  Returns `(new_events, receiver's event records after the loop,
new_journal_data)`; the middle component records the in-place mutation of
the shared event dicts (`e['offset'] = len(new_journal_data)` runs before
the branch, and the UPDATE branch also sets `e['size']`). -/
def updatedGo (upds : List (Str × JUAction)) :
    List ERec → Bytes → Bytes → (List ERec × List ERec × Bytes)
  | [], _, nd => ([], [], nd)
  | e :: es, stream, nd =>
    let eventData := stream.take e.size
    let e1 : ERec := { e with offset := nd.length }
    match lookupUpd upds e.event_id with
    | none =>
      let r := updatedGo upds es (stream.drop e.size) (nd ++ eventData)
      (e1 :: r.1, e1 :: r.2.1, r.2.2)
    | some (JUAction.update d) =>
      let e2 : ERec := { e1 with size := d.length }
      let r := updatedGo upds es (stream.drop e.size) (nd ++ d)
      (e2 :: r.1, e2 :: r.2.1, r.2.2)
    | some JUAction.delete =>
      let r := updatedGo upds es (stream.drop e.size) nd
      (r.1, e1 :: r.2.1, r.2.2)

/-- `BaseJournal.updated`: `(returned journal, receiver journal after the
call)`.  With empty `updates` it returns `self` unchanged; otherwise it
builds a new journal from the mutated shared event records, while the
receiver keeps its (mutated) records and its old data. -/
def updated (J : Journal) (upds : List (Str × JUAction)) : Journal × Journal :=
  if upds = [] then (J, J)
  else
    let r := updatedGo upds J.events J.data []
    (⟨r.1, r.2.2⟩, ⟨r.2.1, J.data⟩)

/-- Offsets are contiguous from `pos`:
`event[i+1].offset = event[i].offset + event[i].size`. -/
def contiguousFrom : Nat → List ERec → Prop
  | _, [] => True
  | pos, e :: es => e.offset = pos ∧ contiguousFrom (pos + e.size) es

/-- Total size of the events' byte ranges. -/
def sumSizes (es : List ERec) : Nat := (es.map ERec.size).sum

/-- Modelled from the spec's words (for comparison with `updated`): the new
journal's events are the old ones in order, DELETE-marked events removed,
UPDATE-marked events' size set to the new data's length, offsets recomputed
sequentially from `base`. -/
def specUpdatedEvents (upds : List (Str × JUAction)) : Nat → List ERec → List ERec
  | _, [] => []
  | base, e :: es =>
    match lookupUpd upds e.event_id with
    | none => { e with offset := base } :: specUpdatedEvents upds (base + e.size) es
    | some (JUAction.update d) =>
      { e with offset := base, size := d.length } :: specUpdatedEvents upds (base + d.length) es
    | some JUAction.delete => specUpdatedEvents upds base es

/-- Modelled from the spec's words: the new blob is the concatenation of the
kept events' bytes — the original slice `data[offset : offset + size]` for
an untouched event, the marker's data for an UPDATE, nothing for a
DELETE. -/
def specUpdatedData (upds : List (Str × JUAction)) (data : Bytes) : List ERec → Bytes
  | [] => []
  | e :: es =>
    match lookupUpd upds e.event_id with
    | none => (data.drop e.offset).take e.size ++ specUpdatedData upds data es
    | some (JUAction.update d) => d ++ specUpdatedData upds data es
    | some JUAction.delete => specUpdatedData upds data es

/-- What the loop leaves in the receiver's (shared, mutated) event records:
every record's offset is set to its position in the *new* data, and
UPDATE-marked records get the new size; DELETE-marked records remain in the
receiver's list. -/
def specMutEvents (upds : List (Str × JUAction)) : Nat → List ERec → List ERec
  | _, [] => []
  | base, e :: es =>
    match lookupUpd upds e.event_id with
    | none => { e with offset := base } :: specMutEvents upds (base + e.size) es
    | some (JUAction.update d) =>
      { e with offset := base, size := d.length } :: specMutEvents upds (base + d.length) es
    | some JUAction.delete => { e with offset := base } :: specMutEvents upds base es

theorem updatedGo_spec (upds : List (Str × JUAction)) :
    ∀ (es : List ERec) (pos : Nat) (nd : Bytes) (data : Bytes),
    contiguousFrom pos es →
    pos + sumSizes es ≤ data.length →
    updatedGo upds es (data.drop pos) nd =
      (specUpdatedEvents upds nd.length es,
       specMutEvents upds nd.length es,
       nd ++ specUpdatedData upds data es) := by
  intro es
  induction es with
  | nil =>
    intro pos nd data _ _
    simp [updatedGo, specUpdatedEvents, specMutEvents, specUpdatedData]
  | cons e es ih =>
    intro pos nd data hcont hlen
    obtain ⟨hoff, hcont'⟩ := hcont
    have hsz : e.size + sumSizes es = sumSizes (e :: es) := by
      simp [sumSizes]
    have hlen' : pos + e.size + sumSizes es ≤ data.length := by omega
    have htake : (data.drop pos).take e.size = (data.drop e.offset).take e.size := by
      rw [hoff]
    have htakelen : ((data.drop pos).take e.size).length = e.size := by
      rw [List.length_take, List.length_drop]
      omega
    have hdrop : (data.drop pos).drop e.size = data.drop (pos + e.size) := by
      rw [List.drop_drop]
    rw [updatedGo]
    simp only [htake, hdrop]
    rcases hu : lookupUpd upds e.event_id with _ | a
    · rw [specUpdatedEvents, specMutEvents, specUpdatedData]
      rw [hu]
      simp only
      rw [ih (pos + e.size) (nd ++ (data.drop e.offset).take e.size) data hcont' hlen']
      have : (nd ++ (data.drop e.offset).take e.size).length = nd.length + e.size := by
        rw [List.length_append, ← htake, htakelen]
      rw [this]
      simp
    · rcases a with d | _
      · rw [specUpdatedEvents, specMutEvents, specUpdatedData]
        rw [hu]
        simp only
        rw [ih (pos + e.size) (nd ++ d) data hcont' hlen']
        have : (nd ++ d).length = nd.length + d.length := by
          rw [List.length_append]
        rw [this]
        simp
      · rw [specUpdatedEvents, specMutEvents, specUpdatedData]
        rw [hu]
        simp only
        rw [ih (pos + e.size) nd data hcont' hlen']

/-- The spec-recomputed offsets are contiguous from the base. -/
theorem specUpdatedEvents_contiguous (upds : List (Str × JUAction)) :
    ∀ (es : List ERec) (base : Nat),
    contiguousFrom base (specUpdatedEvents upds base es) := by
  intro es
  induction es with
  | nil => intro base; simp [specUpdatedEvents, contiguousFrom]
  | cons e es ih =>
    intro base
    rw [specUpdatedEvents]
    rcases hu : lookupUpd upds e.event_id with _ | a
    · exact ⟨rfl, ih (base + e.size)⟩
    · rcases a with d | _
      · exact ⟨rfl, ih (base + d.length)⟩
      · exact ih base

theorem specMutEvents_map_id (upds : List (Str × JUAction)) :
    ∀ (es : List ERec) (base : Nat),
    (specMutEvents upds base es).map (fun e => (e.event_id, e.timestamp)) =
      es.map (fun e => (e.event_id, e.timestamp)) := by
  intro es
  induction es with
  | nil => intro base; rfl
  | cons e es ih =>
    intro base
    rw [specMutEvents]
    rcases hu : lookupUpd upds e.event_id with _ | a
    · simp [ih]
    · rcases a with d | _ <;> simp [ih]

/-- **C6.** For every journal `J` with contiguous event offsets (and a blob
covering them) and every update map `U`: `J.updated(U)` returns `J` itself
when `U` is empty; otherwise it returns a new Journal whose events are `J`'s
events in order with DELETE-marked events removed and each UPDATE-marked
event's bytes replaced by the marker's data (its size set to that data's
length), whose offsets are recomputed sequentially from 0
(`event[i+1].offset = event[i].offset + event[i].size`), and whose data is
exactly the concatenation of the kept events' bytes. -/
theorem journal_updated_spec (J : Journal) (upds : List (Str × JUAction))
    (hcont : contiguousFrom 0 J.events)
    (hlen : sumSizes J.events ≤ J.data.length) :
    (upds = [] → updated J upds = (J, J)) ∧
    (upds ≠ [] →
      (updated J upds).1.events = specUpdatedEvents upds 0 J.events ∧
      (updated J upds).1.data = specUpdatedData upds J.data J.events ∧
      contiguousFrom 0 (updated J upds).1.events) := by
  constructor
  · intro h
    simp [updated, h]
  · intro h
    have hgo := updatedGo_spec upds J.events 0 [] J.data hcont (by simpa using hlen)
    rw [List.drop_zero] at hgo
    rw [updated, if_neg h]
    simp only [hgo, List.length_nil]
    exact ⟨trivial, by simp, specUpdatedEvents_contiguous upds J.events 0⟩

/-- Witness for C6 at a concrete two-event journal with a DELETE marker. -/
theorem journal_updated_spec_witness :
    (updated ⟨[⟨['a'], ['t'], 0, 1⟩, ⟨['b'], ['u'], 1, 1⟩], [7, 8]⟩
        [(['a'], JUAction.delete)]).1.events =
      specUpdatedEvents [(['a'], JUAction.delete)] 0
        [⟨['a'], ['t'], 0, 1⟩, ⟨['b'], ['u'], 1, 1⟩] ∧
    (updated ⟨[⟨['a'], ['t'], 0, 1⟩, ⟨['b'], ['u'], 1, 1⟩], [7, 8]⟩
        [(['a'], JUAction.delete)]).1.data =
      specUpdatedData [(['a'], JUAction.delete)] [7, 8]
        [⟨['a'], ['t'], 0, 1⟩, ⟨['b'], ['u'], 1, 1⟩] ∧
    contiguousFrom 0
      (updated ⟨[⟨['a'], ['t'], 0, 1⟩, ⟨['b'], ['u'], 1, 1⟩], [7, 8]⟩
        [(['a'], JUAction.delete)]).1.events :=
  (journal_updated_spec ⟨[⟨['a'], ['t'], 0, 1⟩, ⟨['b'], ['u'], 1, 1⟩], [7, 8]⟩
    [(['a'], JUAction.delete)]
    (by simp [contiguousFrom]) (by decide)).2 (by decide)

/-- **C7 (counterexample).** Journals are not immutable under `updated`: for
the journal with two one-byte events at offsets 0 and 1 and a DELETE marker
for the first event, the call rewrites the second (shared) event record's
offset in place from 1 to 0, so the receiver's events differ after the
call. -/
theorem journal_updated_mutates_receiver :
    (updated ⟨[⟨['a'], ['t'], 0, 1⟩, ⟨['b'], ['u'], 1, 1⟩], [7, 8]⟩
        [(['a'], JUAction.delete)]).2.events ≠
      [⟨['a'], ['t'], 0, 1⟩, ⟨['b'], ['u'], 1, 1⟩] := by decide

/-- **C7 (amended).** For every journal `J` with contiguous offsets and a
covering blob and every update map `U`: the call leaves the receiver's
`data` unchanged and preserves its events' identities (ids, timestamps,
order, count); with empty `U` the receiver is fully unchanged; but with
non-empty `U` each shared event record's `offset` is mutated in place to
its position in the new blob, and each UPDATE-marked record's `size` to the
marker data's length (DELETE-marked records also remain, with rewritten
offset). -/
theorem journal_updated_receiver (J : Journal) (upds : List (Str × JUAction))
    (hcont : contiguousFrom 0 J.events)
    (hlen : sumSizes J.events ≤ J.data.length) :
    (updated J upds).2.data = J.data ∧
    (upds = [] → (updated J upds).2 = J) ∧
    (upds ≠ [] →
      (updated J upds).2.events = specMutEvents upds 0 J.events ∧
      ((updated J upds).2.events).map (fun e => (e.event_id, e.timestamp)) =
        J.events.map (fun e => (e.event_id, e.timestamp))) := by
  have hgo := updatedGo_spec upds J.events 0 [] J.data hcont (by simpa using hlen)
  rw [List.drop_zero] at hgo
  refine ⟨?_, ?_, ?_⟩
  · rw [updated]
    split <;> rfl
  · intro h
    simp [updated, h]
  · intro h
    rw [updated, if_neg h]
    simp only [hgo, List.length_nil]
    exact ⟨trivial, specMutEvents_map_id upds J.events 0⟩

/-- Witness for the amended C7 at the same concrete journal. -/
theorem journal_updated_receiver_witness :
    (updated ⟨[⟨['a'], ['t'], 0, 1⟩, ⟨['b'], ['u'], 1, 1⟩], [7, 8]⟩
        [(['a'], JUAction.delete)]).2.data = [7, 8] ∧
    (updated ⟨[⟨['a'], ['t'], 0, 1⟩, ⟨['b'], ['u'], 1, 1⟩], [7, 8]⟩
        [(['a'], JUAction.delete)]).2.events =
      specMutEvents [(['a'], JUAction.delete)] 0
        [⟨['a'], ['t'], 0, 1⟩, ⟨['b'], ['u'], 1, 1⟩] := by
  have h := journal_updated_receiver
    ⟨[⟨['a'], ['t'], 0, 1⟩, ⟨['b'], ['u'], 1, 1⟩], [7, 8]⟩
    [(['a'], JUAction.delete)] (by simp [contiguousFrom]) (by decide)
  exact ⟨h.1, (h.2.2 (by decide)).1⟩

/-! ### Identifiers (`identifiers.py`) -/

/-- `JournalID.make(start_timestamp, end_timestamp, version, blob_id)`:
join the four parts with `"--"`. -/
def journalIDMake (s e v b : Str) : Str := s ++ dd ++ e ++ dd ++ v ++ dd ++ b

/-- `JournalID._parts`: `self.split(DELIMITER)` unpacked into exactly four
names; `none` when the part count differs (Python raises `ValueError`). -/
def journalIDParts (id : Str) : Option (Str × Str × Str × Str) :=
  match splitDD id with
  | [a, b, c, d] => some (a, b, c, d)
  | _ => none

/-- `JournalID.range_prefix`: `self.rsplit(DELIMITER, 2)[0]`, i.e. the id
with its last two `"--"`-separated parts stripped. -/
def rangePfx (id : Str) : Str :=
  match rsplit1? id with
  | none => id
  | some (a, _) =>
    match rsplit1? a with
    | none => a
    | some (a2, _) => a2

/-- `JournalUpdateAction` member names. -/
inductive JUActionName
  | UPDATE
  | DELETE
deriving DecidableEq

/-- `action.name`. -/
def actionName : JUActionName → Str
  | .UPDATE => ['U', 'P', 'D', 'A', 'T', 'E']
  | .DELETE => ['D', 'E', 'L', 'E', 'T', 'E']

/-- `JournalUpdateAction[action_name]`: enum lookup by member name,
`none` on a `KeyError`. -/
def actionOfName (s : Str) : Option JUActionName :=
  if s = actionName .UPDATE then some .UPDATE
  else if s = actionName .DELETE then some .DELETE
  else none

/-- `JournalUpdateID.make(journal_id, event_id, action)` with the
`timestamp_now()` value passed in explicitly: the journal id is stored
reversed roughly so that markers group by journal under a listable
prefix. -/
def journalUpdateIDMake (jid eid ts : Str) (a : JUActionName) : Str :=
  jid.reverse ++ dd ++ eid ++ dd ++ ts ++ dd ++ actionName a

/-- `JournalUpdateID._parts`: `self.rsplit(DELIMITER, 3)` unpacked into
four names, the first un-reversed into the journal id, the last looked up
as an action name; `none` when the unpacking or the enum lookup fails. -/
def journalUpdateIDParts (id : Str) : Option (Str × Str × Str × JUActionName) :=
  match rsplit1? id with
  | none => none
  | some (x, anm) =>
    match rsplit1? x with
    | none => none
    | some (y, ts) =>
      match rsplit1? y with
      | none => none
      | some (rj, eid) => (actionOfName anm).map fun a => (rj.reverse, eid, ts, a)

/-- `JournalUpdateID.prefix_for_journal`. -/
def prefixForJournal (jid : Str) : Str := jid.reverse

/-- A well-behaved id component: no `"--"` occurrence, and no leading or
trailing `'-'` (which would shift the delimiter match). -/
def goodIdPart (x : Str) : Prop :=
  ¬ dd <:+: x ∧ x.head? ≠ some '-' ∧ x.getLast? ≠ some '-'

theorem actionName_good (a : JUActionName) :
    ¬ dd <:+: actionName a ∧ (actionName a).head? ≠ some '-' := by
  cases a <;> exact ⟨by decide, by decide⟩

theorem actionOfName_actionName (a : JUActionName) :
    actionOfName (actionName a) = some a := by
  cases a <;> rfl

/-- **C9 (counterexample).** The id round trip fails for component strings
that merely avoid `"--"`: with `s = "x-"` (no `"--"` occurrence), `e = "y"`,
`v = "z"`, `b = "w"`, the id is `"x---y--z--w"` and `split("--")` parses it
back as `("x", "-y", "z", "w")`, not `("x-", "y", "z", "w")`. -/
theorem journalID_roundtrip_claim_false :
    journalIDParts (journalIDMake ['x', '-'] ['y'] ['z'] ['w']) =
      some (['x'], ['-', 'y'], ['z'], ['w']) ∧
    journalIDParts (journalIDMake ['x', '-'] ['y'] ['z'] ['w']) ≠
      some (['x', '-'], ['y'], ['z'], ['w']) ∧
    ¬ dd <:+: ['x', '-'] ∧ ¬ dd <:+: ['y'] ∧ ¬ dd <:+: ['z'] ∧ ¬ dd <:+: ['w'] := by
  refine ⟨by decide, by decide, by decide, by decide, by decide, by decide⟩

/-- **C9 (amended).** Identifier round trip for component strings that
contain no `"--"` and neither start nor end with `'-'`:
`JournalID.make(s, e, v, b)` parses back to exactly those four parts and its
`range_prefix` is `s--e`; and for any journal id `jid` (which itself
contains `"--"` delimiters, stored reversed), `JournalUpdateID.make(jid,
eid, ts, a)` parses back to journal id `jid`, event id `eid` and action `a`,
and begins with `prefix_for_journal(jid) = reverse(jid)`. -/
theorem identifier_roundtrip (s e v b eid ts jid : Str) (a : JUActionName)
    (hs : goodIdPart s) (he : goodIdPart e) (hv : goodIdPart v) (hb : goodIdPart b)
    (heid : goodIdPart eid) (hts : goodIdPart ts) :
    journalIDParts (journalIDMake s e v b) = some (s, e, v, b) ∧
    rangePfx (journalIDMake s e v b) = s ++ dd ++ e ∧
    journalUpdateIDParts (journalUpdateIDMake jid eid ts a) = some (jid, eid, ts, a) ∧
    prefixForJournal jid <+: journalUpdateIDMake jid eid ts a ∧
    prefixForJournal jid = jid.reverse := by
  refine ⟨?_, ?_, ?_, ?_, rfl⟩
  · have hmk : journalIDMake s e v b = s ++ dd ++ (e ++ dd ++ (v ++ dd ++ b)) := by
      simp [journalIDMake, List.append_assoc]
    rw [journalIDParts, hmk, splitDD_append hs.1 hs.2.2, splitDD_append he.1 he.2.2,
      splitDD_append hv.1 hv.2.2, splitDD_eq_single hb.1]
  · have h1 : rsplit1? (journalIDMake s e v b) = some (s ++ dd ++ e ++ dd ++ v, b) := by
      rw [show journalIDMake s e v b = (s ++ dd ++ e ++ dd ++ v) ++ dd ++ b from by
        simp [journalIDMake], rsplit1?_append hb.1 hb.2.1]
    have h2 : rsplit1? (s ++ dd ++ e ++ dd ++ v) = some (s ++ dd ++ e, v) := by
      rw [show s ++ dd ++ e ++ dd ++ v = (s ++ dd ++ e) ++ dd ++ v from by simp,
        rsplit1?_append hv.1 hv.2.1]
    rw [rangePfx]
    simp only [h1, h2]
  · have g1 : rsplit1? (journalUpdateIDMake jid eid ts a) =
        some (jid.reverse ++ dd ++ eid ++ dd ++ ts, actionName a) := by
      rw [show journalUpdateIDMake jid eid ts a =
          (jid.reverse ++ dd ++ eid ++ dd ++ ts) ++ dd ++ actionName a from by
        simp [journalUpdateIDMake], rsplit1?_append (actionName_good a).1 (actionName_good a).2]
    have g2 : rsplit1? (jid.reverse ++ dd ++ eid ++ dd ++ ts) =
        some (jid.reverse ++ dd ++ eid, ts) := by
      rw [show jid.reverse ++ dd ++ eid ++ dd ++ ts =
          (jid.reverse ++ dd ++ eid) ++ dd ++ ts from by simp,
        rsplit1?_append hts.1 hts.2.1]
    have g3 : rsplit1? (jid.reverse ++ dd ++ eid) = some (jid.reverse, eid) :=
      rsplit1?_append heid.1 heid.2.1
    rw [journalUpdateIDParts]
    simp only [g1, g2, g3, actionOfName_actionName, Option.map_some', List.reverse_reverse]
  · rw [prefixForJournal]
    have : journalUpdateIDMake jid eid ts a =
        jid.reverse ++ (dd ++ eid ++ dd ++ ts ++ dd ++ actionName a) := by
      simp [journalUpdateIDMake]
    rw [this]
    exact List.prefix_append _ _

/-- Witness for the amended C9, with a journal id containing `"--"`. -/
theorem identifier_roundtrip_witness :
    journalIDParts (journalIDMake ['x'] ['y'] ['z'] ['w']) =
      some (['x'], ['y'], ['z'], ['w']) ∧
    journalUpdateIDParts
        (journalUpdateIDMake ['p', '-', '-', 'q'] ['e'] ['t'] JUActionName.UPDATE) =
      some (['p', '-', '-', 'q'], ['e'], ['t'], JUActionName.UPDATE) := by
  have h := identifier_roundtrip ['x'] ['y'] ['z'] ['w'] ['e'] ['t'] ['p', '-', '-', 'q']
    JUActionName.UPDATE (by refine ⟨by decide, by decide, by decide⟩)
    ⟨by decide, by decide, by decide⟩ ⟨by decide, by decide, by decide⟩
    ⟨by decide, by decide, by decide⟩ ⟨by decide, by decide, by decide⟩
    ⟨by decide, by decide, by decide⟩
  exact ⟨h.1, h.2.2.1⟩

/-! ### `BaseJournalUpdate.list` (`objects.py`) -/

/-- The loop of `BaseJournalUpdate.list` over the lexically ordered listing
of update ids: a one-step look-behind that yields the previous key when
neither it nor the current key is a tombstone (Python's `if prev_key:` also
skips a falsy — empty — previous key), and finally yields the last key when
it is non-empty and not a tombstone. -/
def juListGo : Option Str → List Str → List Str
  | prev, [] =>
    match prev with
    | some k => if k ≠ [] ∧ ¬ endsDead k = true then [k] else []
    | none => []
  | prev, k :: rest =>
    (match prev with
     | some p => if p ≠ [] ∧ ¬ endsDead k = true ∧ ¬ endsDead p = true then [p] else []
     | none => []) ++ juListGo (some k) rest

/-- `BaseJournalUpdate.list` on a listing of update ids. -/
def juList (listing : List Str) : List Str := juListGo none listing

/-- A listing unit: a live key alone, or a live key immediately followed by
its tombstone. -/
def pairUnit : Str × Bool → List Str
  | (k, false) => [k]
  | (k, true) => [k, k ++ deadStr]

/-- The live keys of a unit listing whose tombstone is absent. -/
def liveKeys (units : List (Str × Bool)) : List Str :=
  (units.filter (fun u => u.2 = false)).map Prod.fst

theorem endsDead_append_dead (k : Str) : endsDead (k ++ deadStr) = true := by
  rw [endsDead, List.isSuffixOf_iff_suffix]
  exact List.suffix_append k deadStr

theorem juListGo_units :
    ∀ (units : List (Str × Bool)) (q : Str), q ≠ [] →
    (∀ u ∈ units, endsDead u.1 = false ∧ u.1 ≠ []) →
    juListGo (some q) (units.flatMap pairUnit) =
      (if endsDead q = true then [] else [q]) ++ liveKeys units := by
  intro units
  induction units with
  | nil =>
    intro q hq _
    rw [List.flatMap_nil, juListGo]
    rcases hd : endsDead q <;> simp [hq, hd, liveKeys]
  | cons u rest ih =>
    intro q hq hgood
    obtain ⟨k, b⟩ := u
    have hk : endsDead k = false ∧ k ≠ [] := hgood (k, b) (by simp)
    have hgood' : ∀ u ∈ rest, endsDead u.1 = false ∧ u.1 ≠ [] :=
      fun u hu => hgood u (by simp [hu])
    rcases b with _ | _
    · -- live key alone
      rw [show ((k, false) :: rest).flatMap pairUnit = k :: rest.flatMap pairUnit from by
        simp [pairUnit], juListGo, ih k hk.2 hgood']
      have hlive : liveKeys ((k, false) :: rest) = k :: liveKeys rest := by
        simp [liveKeys]
      rw [hlive, hk.1]
      rcases hd : endsDead q <;> simp [hq, hd, hk.1]
    · -- live key followed by its tombstone
      rw [show ((k, true) :: rest).flatMap pairUnit =
          k :: (k ++ deadStr) :: rest.flatMap pairUnit from by simp [pairUnit],
        juListGo, juListGo, ih (k ++ deadStr) (by simp [deadStr]) hgood']
      have hlive : liveKeys ((k, true) :: rest) = liveKeys rest := by
        simp [liveKeys]
      rw [hlive, endsDead_append_dead, hk.1]
      rcases hd : endsDead q <;> simp [hq, hd, endsDead_append_dead]

theorem liveKeys_sublist (units : List (Str × Bool)) :
    List.Sublist (liveKeys units) (units.flatMap pairUnit) := by
  induction units with
  | nil => simp [liveKeys]
  | cons u rest ih =>
    obtain ⟨k, b⟩ := u
    rcases b with _ | _
    · rw [show ((k, false) :: rest).flatMap pairUnit = k :: rest.flatMap pairUnit from by
        simp [pairUnit], show liveKeys ((k, false) :: rest) = k :: liveKeys rest from by
        simp [liveKeys]]
      exact ih.cons₂ k
    · rw [show ((k, true) :: rest).flatMap pairUnit =
          k :: (k ++ deadStr) :: rest.flatMap pairUnit from by simp [pairUnit],
        show liveKeys ((k, true) :: rest) = liveKeys rest from by simp [liveKeys]]
      exact (ih.trans (List.sublist_cons_self _ _)).trans (List.sublist_cons_self _ _)

/-- **C5 (counterexample).** On the lexically ordered listing
`["a", "b.dead"]` — a tombstone whose live key is absent, as eventual
consistency can produce — `BaseJournalUpdate.list` yields nothing: the
look-behind discards `"a"` because the *following* key is a tombstone, even
though `"a.dead"` is not in the listing.  This contradicts the claim's
"never omits a non-tombstone key whose own tombstone is absent". -/
theorem juList_claim_false :
    juList [['a'], ['b'] ++ deadStr] = [] ∧
    endsDead ['a'] = false ∧
    ¬ (['a'] ++ deadStr) ∈ [['a'], ['b'] ++ deadStr] := by
  refine ⟨by decide, by decide, by decide⟩

/-- **C5 (amended).** On a lexically ordered listing of distinct non-empty
non-tombstone update ids in which every tombstone immediately follows its
live key (the situation the look-behind is written for — `.dead` sorts
right after its live sibling), `BaseJournalUpdate.list` yields exactly the
ids whose tombstone is absent, in lexical key order: it omits every
tombstone key and every key whose tombstone is present, and omits no key
whose tombstone is absent. -/
theorem juList_spec (units : List (Str × Bool))
    (hgood : ∀ u ∈ units, endsDead u.1 = false ∧ u.1 ≠ [])
    (hsort : List.Pairwise (fun a b => keyLt a b = true) (units.flatMap pairUnit)) :
    juList (units.flatMap pairUnit) = liveKeys units ∧
    List.Pairwise (fun a b => keyLt a b = true) (juList (units.flatMap pairUnit)) := by
  have hmain : juList (units.flatMap pairUnit) = liveKeys units := by
    rcases units with _ | ⟨⟨k, b⟩, rest⟩
    · rfl
    · have hk : endsDead k = false ∧ k ≠ [] := hgood (k, b) (by simp)
      have hgood' : ∀ u ∈ rest, endsDead u.1 = false ∧ u.1 ≠ [] :=
        fun u hu => hgood u (by simp [hu])
      rcases b with _ | _
      · rw [show ((k, false) :: rest).flatMap pairUnit = k :: rest.flatMap pairUnit from by
          simp [pairUnit], juList, juListGo, juListGo_units rest k hk.2 hgood', hk.1]
        simp [liveKeys]
      · rw [show ((k, true) :: rest).flatMap pairUnit =
            k :: (k ++ deadStr) :: rest.flatMap pairUnit from by simp [pairUnit],
          juList, juListGo, juListGo,
          juListGo_units rest (k ++ deadStr) (by simp [deadStr]) hgood',
          endsDead_append_dead, hk.1]
        simp [liveKeys]
  exact ⟨hmain, hmain ▸ hsort.sublist (liveKeys_sublist units)⟩

/-- Witness for the amended C5 at the listing `["a", "b", "b.dead", "c"]`. -/
theorem juList_spec_witness :
    juList [['a'], ['b'], ['b'] ++ deadStr, ['c']] = [['a'], ['c']] := by
  have h := (juList_spec [(['a'], false), (['b'], true), (['c'], false)]
    (by intro u hu; fin_cases hu <;> exact ⟨by decide, by decide⟩)
    (by decide)).1
  exact (by decide : [(['a'], false), (['b'], true), (['c'], false)].flatMap pairUnit =
    [['a'], ['b'], ['b'] ++ deadStr, ['c']]) ▸ h.trans (by decide)

/-! ### `BaseJournal.list` (`objects.py`) -/

/-- Python `list.remove(x)`: remove the first occurrence; `none` models the
`ValueError` raised when `x` is absent. -/
def removeFirst? : List Str → Str → Option (List Str)
  | [], _ => none
  | a :: t, x => if a = x then some t else (removeFirst? t x).map (a :: ·)

/-- The loop of `BaseJournal.list` over the lexically ordered listing of
journal ids (keys under the journal prefix): `journal_info` is the pair of
the current `range_prefix` (initially `None`) and the candidate
`journal_ids`; an id with a different range prefix closes the current group,
yielding its last candidate if any; within a group a tombstone removes its
stripped id from the candidates (`none` models the `ValueError` when that id
is absent) and any other id is appended; at the end the last group's last
candidate is yielded. -/
def jListGo : Option Str → List Str → List Str → Option (List Str)
  | _, cands, [] => some (match cands.getLast? with | some k => [k] | none => [])
  | rp, cands, id :: rest =>
    if some (rangePfx id) ≠ rp then
      (jListGo (some (rangePfx id)) [id] rest).map fun out =>
        (match cands.getLast? with | some k => [k] | none => []) ++ out
    else
      if endsDead id then
        match removeFirst? cands (dropDead id) with
        | none => none
        | some cands' => jListGo rp cands' rest
      else jListGo rp (cands ++ [id]) rest

/-- `BaseJournal.list` over a listing of journal ids. -/
def jList (listing : List Str) : Option (List Str) := jListGo none [] listing

/-- Step equation for `dropDead` when no `".dead"` occurrence starts at the
head. -/
theorem dropDead_cons {c : Char} {rest : Str} (h : ¬ deadStr <+: (c :: rest)) :
    dropDead (c :: rest) = c :: dropDead rest := by
  rcases rest with _ | ⟨c2, r2⟩
  · rfl
  rcases r2 with _ | ⟨c3, r3⟩
  · rfl
  rcases r3 with _ | ⟨c4, r4⟩
  · rfl
  rcases r4 with _ | ⟨c5, r5⟩
  · rfl
  rw [dropDead, if_neg]
  rintro ⟨h1, h2, h3, h4, h5⟩
  exact h ⟨r5, by simp [deadStr, h1, h2, h3, h4, h5]⟩

/-- `dropDead` leaves a string with no `".dead"` occurrence unchanged. -/
theorem dropDead_of_no_dead {u : Str} (h : ¬ deadStr <:+: u) : dropDead u = u := by
  induction u with
  | nil => rfl
  | cons c rest ih =>
    rw [dropDead_cons (fun hp => h hp.isInfix),
      ih (fun hi => h (List.infix_cons hi))]

/-- `".dead"` has no nontrivial border, so appending it to a string with no
`".dead"` occurrence creates exactly one occurrence, at the very end:
`replace` strips it. -/
theorem dropDead_append_dead {u : Str} (h : ¬ deadStr <:+: u) :
    dropDead (u ++ deadStr) = u := by
  induction u with
  | nil => rfl
  | cons c rest ih =>
    have hih := ih (fun hi => h (List.infix_cons hi))
    have hnp : ¬ deadStr <+: (c :: rest ++ deadStr) := by
      intro hp
      by_cases hlen : 5 ≤ (c :: rest).length
      · have h5 : deadStr <+: (c :: rest) := by
          have h1 : deadStr = ((c :: rest) ++ deadStr).take 5 := by
            rcases hp with ⟨t, ht⟩
            rw [← ht]
            simp [deadStr]
          rw [List.take_append_of_le_length hlen] at h1
          rw [h1]
          exact List.take_prefix _ _
        exact h h5.isInfix
      · -- `c :: rest` is shorter than `".dead"`: a border of `".dead"` would
        -- be needed, and it has none.
        rcases rest with _ | ⟨a2, r2⟩
        · rcases hp with ⟨t, ht⟩
          simp [deadStr] at ht
        rcases r2 with _ | ⟨a3, r3⟩
        · rcases hp with ⟨t, ht⟩
          simp [deadStr] at ht
        rcases r3 with _ | ⟨a4, r4⟩
        · rcases hp with ⟨t, ht⟩
          simp [deadStr] at ht
        rcases r4 with _ | ⟨a5, r5⟩
        · rcases hp with ⟨t, ht⟩
          simp [deadStr] at ht
        · simp at hlen
    rw [show (c :: rest) ++ deadStr = c :: (rest ++ deadStr) from rfl,
      @dropDead_cons c (rest ++ deadStr) hnp, hih]

/-- `removeFirst?` succeeds exactly on members, removing the first
occurrence (`List.erase`). -/
theorem removeFirst?_eq {l : List Str} {x : Str} (h : x ∈ l) :
    removeFirst? l x = some (l.erase x) := by
  induction l with
  | nil => simp at h
  | cons a t ih =>
    by_cases hax : a = x
    · subst hax
      rw [removeFirst?, if_pos rfl, List.erase_cons_head]
    · rw [removeFirst?, if_neg hax, List.erase_cons_tail]
      · rcases List.mem_cons.mp h with rfl | hxt
        · exact absurd rfl hax
        · rw [ih hxt, Option.map_some']
      · simp [hax]

/-- A group-block listing entry `(x, tb)`: the live journal id `x`, or —
when `tb` — the tombstone key `x ++ ".dead"` of an earlier-listed live
id. -/
def entryId (u : Str × Bool) : Str := if u.2 then u.1 ++ deadStr else u.1

/-- The live ids among the entries. -/
def entLive (ents : List (Str × Bool)) : List Str :=
  (ents.filter (fun u => u.2 = false)).map Prod.fst

/-- The ids with a tombstone among the entries. -/
def entTomb (ents : List (Str × Bool)) : List Str :=
  (ents.filter (fun u => u.2 = true)).map Prod.fst

/-- The candidate ids left at the end of a group that started with
candidates `cands`: the live ids without a tombstone in the group. -/
def groupSurv (cands : List Str) (ents : List (Str × Bool)) : List Str :=
  (cands ++ entLive ents).filter (fun x => ¬ x ∈ entTomb ents)

/-- Every tombstone entry is preceded by its live id (`seen` accumulates the
live ids walked over so far). -/
def tombOKb : List Str → List (Str × Bool) → Bool
  | _, [] => true
  | seen, (x, false) :: rest => tombOKb (x :: seen) rest
  | seen, (x, true) :: rest => decide (x ∈ seen) && tombOKb seen rest

theorem endsDead_false {x : Str} (h : ¬ deadStr <:+: x) : endsDead x = false := by
  rcases hx : endsDead x with _ | _
  · rfl
  · exact absurd ((List.isSuffixOf_iff_suffix.mp hx).isInfix) h
theorem entLive_cons_false (x : Str) (rest : List (Str × Bool)) :
    entLive ((x, false) :: rest) = x :: entLive rest := by
  simp [entLive]

theorem entLive_cons_true (x : Str) (rest : List (Str × Bool)) :
    entLive ((x, true) :: rest) = entLive rest := by
  simp [entLive]

theorem entTomb_cons_false (x : Str) (rest : List (Str × Bool)) :
    entTomb ((x, false) :: rest) = entTomb rest := by
  simp [entTomb]

theorem entTomb_cons_true (x : Str) (rest : List (Str × Bool)) :
    entTomb ((x, true) :: rest) = x :: entTomb rest := by
  simp [entTomb]

theorem tombOKb_split :
    ∀ (ents : List (Str × Bool)) (seen : List Str), tombOKb seen ents = true →
    ∀ p w x, ents = p ++ (x, true) :: w → x ∈ seen ∨ x ∈ entLive p := by
  intro ents
  induction ents with
  | nil =>
    intro seen _ p w x hsplit
    exact absurd hsplit.symm (List.append_ne_nil_of_right_ne_nil p (by simp))
  | cons u rest ih =>
    intro seen hok p w x hsplit
    obtain ⟨y, b⟩ := u
    rcases p with _ | ⟨p0, p'⟩
    · simp only [List.nil_append, List.cons.injEq] at hsplit
      obtain ⟨hy, hw⟩ := hsplit
      obtain ⟨rfl, rfl⟩ : y = x ∧ b = true := by
        injection hy with h1 h2
        exact ⟨h1, h2⟩
      rw [tombOKb] at hok
      simp only [Bool.and_eq_true, decide_eq_true_eq] at hok
      exact Or.inl hok.1
    · simp only [List.cons_append, List.cons.injEq] at hsplit
      obtain ⟨hp0, hrest⟩ := hsplit
      subst hp0
      rcases b with _ | _
      · rw [tombOKb] at hok
        rcases ih (y :: seen) hok p' w x hrest with h | h
        · rcases List.mem_cons.mp h with rfl | h'
          · rw [entLive_cons_false]
            exact Or.inr (List.mem_cons_self _ _)
          · exact Or.inl h'
        · rw [entLive_cons_false]
          exact Or.inr (List.mem_cons_of_mem _ h)
      · rw [tombOKb] at hok
        simp only [Bool.and_eq_true] at hok
        rcases ih seen hok.2 p' w x hrest with h | h
        · exact Or.inl h
        · rw [entLive_cons_true]
          exact Or.inr h

/-- Walking one group (all ids share the current range prefix `r`): the
candidate list ends up holding exactly the not-tombstoned live ids, in
listing order. -/
theorem jListGo_group :
    ∀ (ents : List (Str × Bool)) (r : Str) (cands : List Str) (tail : List Str),
    (∀ u ∈ ents, rangePfx (entryId u) = r) →
    (∀ u ∈ ents, ¬ deadStr <:+: u.1) →
    (∀ p w x, ents = p ++ (x, true) :: w → x ∈ cands ++ entLive p) →
    (cands ++ entLive ents).Nodup →
    (entTomb ents).Nodup →
    jListGo (some r) cands (ents.map entryId ++ tail) =
      jListGo (some r) (groupSurv cands ents) tail := by
  intro ents
  induction ents with
  | nil =>
    intro r cands tail _ _ _ _ _
    simp [groupSurv, entLive, entTomb]
  | cons u rest ih =>
    intro r cands tail hrp hx hearly hnodup htomb
    obtain ⟨x, tb⟩ := u
    have hxx : ¬ deadStr <:+: x := hx (x, tb) (by simp)
    rcases tb with _ | _
    · -- live entry: appended to the candidates
      have hrpx : rangePfx x = r := by simpa [entryId] using hrp (x, false) (by simp)
      have hstep : jListGo (some r) cands (entryId (x, false) :: (rest.map entryId ++ tail)) =
          jListGo (some r) (cands ++ [x]) (rest.map entryId ++ tail) := by
        rw [jListGo, if_neg (by simp [entryId, hrpx])]
        rw [show entryId (x, false) = x from rfl, endsDead_false hxx]
        simp
      rw [List.map_cons, List.cons_append, hstep]
      rw [ih r (cands ++ [x]) tail (fun u hu => hrp u (by simp [hu]))
        (fun u hu => hx u (by simp [hu]))
        (by
          intro p w y hsplit
          have hy := hearly ((x, false) :: p) w y (by simp [hsplit])
          rw [entLive_cons_false] at hy
          simpa [List.append_assoc] using hy)
        (by
          rw [entLive_cons_false] at hnodup
          simpa [List.append_assoc] using hnodup)
        (by rwa [entTomb_cons_false] at htomb)]
      rw [groupSurv, groupSurv, entLive_cons_false, entTomb_cons_false, List.append_assoc]
      simp
    · -- tombstone entry: removes its live id from the candidates
      have hrpx : rangePfx (x ++ deadStr) = r := by
        simpa [entryId] using hrp (x, true) (by simp)
      have hxc : x ∈ cands := by
        have hy := hearly [] rest x rfl
        simpa [entLive] using hy
      have hnodupC : cands.Nodup := by
        rw [entLive_cons_true] at hnodup
        exact hnodup.of_append_left
      have hxnotomb : ¬ x ∈ entTomb rest := by
        rw [entTomb_cons_true] at htomb
        exact fun hm => (List.pairwise_cons.mp htomb).1 x hm rfl
      have hxnotlive : ¬ x ∈ entLive rest := by
        intro hmem
        rw [entLive_cons_true] at hnodup
        exact (List.disjoint_of_nodup_append hnodup) hxc hmem
      have hstep : jListGo (some r) cands (entryId (x, true) :: (rest.map entryId ++ tail)) =
          jListGo (some r) (cands.erase x) (rest.map entryId ++ tail) := by
        rw [jListGo, if_neg (by simp [entryId, hrpx])]
        rw [show entryId (x, true) = x ++ deadStr from rfl, endsDead_append_dead]
        simp only [if_true]
        rw [dropDead_append_dead hxx, removeFirst?_eq hxc]
      rw [List.map_cons, List.cons_append, hstep]
      rw [ih r (cands.erase x) tail (fun u hu => hrp u (by simp [hu]))
        (fun u hu => hx u (by simp [hu]))
        (by
          intro p w y hsplit
          have hy := hearly ((x, true) :: p) w y (by simp [hsplit])
          rw [entLive_cons_true] at hy
          have hyne : y ≠ x := by
            rintro rfl
            exact hxnotomb (by simp [entTomb, hsplit])
          rcases List.mem_append.mp hy with h | h
          · exact List.mem_append_left _ ((List.mem_erase_of_ne hyne).mpr h)
          · exact List.mem_append_right _ h)
        (by
          rw [entLive_cons_true] at hnodup
          exact hnodup.sublist (List.Sublist.append_right (List.erase_sublist x cands) _))
        (by rw [entTomb_cons_true] at htomb; exact (List.pairwise_cons.mp htomb).2)]
      rw [groupSurv, groupSurv, entLive_cons_true, entTomb_cons_true]
      rw [List.filter_append, List.filter_append,
        hnodupC.erase_eq_filter x, List.filter_filter]
      congr 1
      congr 1
      · apply List.filter_congr
        intro z _
        by_cases hz : z = x
        · subst hz
          simp [hxnotomb]
        · simp [hz, Ne.symm hz]
      · apply List.filter_congr
        intro z hz
        have hzx : z ≠ x := fun he => hxnotlive (he ▸ hz)
        simp [hzx]

theorem getLast?_mem_self {α : Type} {l : List α} {a : α} (h : l.getLast? = some a) :
    a ∈ l := by
  rcases List.mem_getLast?_eq_getLast (by rw [Option.mem_def]; exact h) with ⟨hne, heq⟩
  rw [heq]
  exact List.getLast_mem hne

/-- A group-block of the journal listing: its `range_prefix` string and its
entries. -/
abbrev GBlock := Str × List (Str × Bool)

/-- The listing keys a group-block contributes. -/
def gListing (g : GBlock) : List Str := g.2.map entryId

/-- Well-formedness of a group-block: non-empty; all its keys share its
range prefix; live ids contain no `".dead"`; every tombstone follows its
live id; live ids and tombstoned ids are each distinct. -/
def GBok (g : GBlock) : Prop :=
  g.2 ≠ [] ∧
  (∀ u ∈ g.2, rangePfx (entryId u) = g.1) ∧
  (∀ u ∈ g.2, ¬ deadStr <:+: u.1) ∧
  tombOKb [] g.2 = true ∧
  (entLive g.2).Nodup ∧
  (entTomb g.2).Nodup

/-- What a finished group yields: its last candidate, if any. -/
def lastYield (cands : List Str) : List Str :=
  match cands.getLast? with
  | some k => [k]
  | none => []

theorem jListGo_groups :
    ∀ (groups : List GBlock) (rp : Option Str) (cands : List Str),
    (∀ g ∈ groups, GBok g) →
    List.Chain' (fun g g' : GBlock => g.1 ≠ g'.1) groups →
    (∀ g0 ∈ groups.head?, some (g0 : GBlock).1 ≠ rp) →
    jListGo rp cands (groups.flatMap gListing) =
      some (lastYield cands ++
        groups.filterMap (fun g => (groupSurv [] g.2).getLast?)) := by
  intro groups
  induction groups with
  | nil =>
    intro rp cands _ _ _
    simp [jListGo, lastYield]
  | cons g gs ih =>
    intro rp cands hok hchain hne
    obtain ⟨r, ents⟩ := g
    obtain ⟨hne0, hrp, hxg, htok, hlnd, htnd⟩ := hok (r, ents) (by simp)
    rcases ents with _ | ⟨⟨x0, tb0⟩, ents'⟩
    · exact absurd rfl hne0
    have htb0 : tb0 = false := by
      rcases tb0 with _ | _
      · rfl
      · rw [tombOKb] at htok
        simp at htok
    subst htb0
    have hrpx0 : rangePfx x0 = r := by simpa [entryId] using hrp (x0, false) (by simp)
    have hflat : ((r, (x0, false) :: ents') :: gs).flatMap gListing =
        x0 :: (ents'.map entryId ++ gs.flatMap gListing) := by
      simp [gListing, entryId]
    rw [hflat, jListGo, if_pos (by
      rw [hrpx0]
      exact hne (r, (x0, false) :: ents') rfl)]
    rw [hrpx0]
    have htok' : tombOKb [x0] ents' = true := htok
    rw [jListGo_group ents' r [x0] (gs.flatMap gListing)
      (fun u hu => hrp u (by simp [hu]))
      (fun u hu => hxg u (by simp [hu]))
      (by
        intro p w y hsplit
        rcases tombOKb_split ents' [x0] htok' p w y hsplit with h | h
        · exact List.mem_append_left _ h
        · exact List.mem_append_right _ h)
      (by
        rw [entLive_cons_false] at hlnd
        simpa using hlnd)
      (by rwa [entTomb_cons_false] at htnd)]
    rw [ih (some r) (groupSurv [x0] ents')
      (fun g hg => hok g (by simp [hg]))
      (List.chain'_cons'.mp hchain).2
      (by
        intro g0 hg0
        have := (List.chain'_cons'.mp hchain).1 g0 hg0
        simpa using this.symm)]
    have hsurv : groupSurv [x0] ents' = groupSurv [] ((x0, false) :: ents') := by
      rw [groupSurv, groupSurv, entLive_cons_false, entTomb_cons_false]
      simp
    rw [Option.map_some']
    congr 1
    have hfm : List.filterMap (fun g : GBlock => (groupSurv [] g.2).getLast?)
        ((r, (x0, false) :: ents') :: gs) =
        lastYield (groupSurv [x0] ents') ++
          List.filterMap (fun g : GBlock => (groupSurv [] g.2).getLast?) gs := by
      rcases hlast : (groupSurv [] ((x0, false) :: ents')).getLast? with _ | y
      · simp [List.filterMap_cons, hlast, lastYield, hsurv]
      · simp [List.filterMap_cons, hlast, lastYield, hsurv]
    rw [hfm]
    rfl

theorem entLive_sublist (ents : List (Str × Bool)) :
    List.Sublist (entLive ents) (ents.map entryId) := by
  induction ents with
  | nil => simp [entLive]
  | cons u rest ih =>
    obtain ⟨x, tb⟩ := u
    rcases tb with _ | _
    · rw [entLive_cons_false, List.map_cons, show entryId (x, false) = x from rfl]
      exact ih.cons₂ x
    · rw [entLive_cons_true, List.map_cons]
      exact ih.trans (List.sublist_cons_self _ _)

theorem pairwise_getLast?_max {α : Type} {R : α → α → Prop} :
    ∀ {l : List α}, List.Pairwise R l → ∀ {y}, l.getLast? = some y →
    ∀ x ∈ l, R x y ∨ x = y := by
  intro l
  induction l with
  | nil => intro _ y hy; simp at hy
  | cons a t ih =>
    intro hp y hy x hx
    rcases t with _ | ⟨b, t'⟩
    · simp at hy hx
      subst hy
      exact Or.inr hx
    · rw [List.getLast?_cons_cons] at hy
      rcases List.mem_cons.mp hx with rfl | hxt
      · have hyin : y ∈ b :: t' := getLast?_mem_self hy
        exact Or.inl ((List.pairwise_cons.mp hp).1 y hyin)
      · exact ih (List.pairwise_cons.mp hp).2 hy x hxt

/-- **C4 (counterexample).** `BaseJournal.list` can yield a tombstone key:
on the lexically ordered listing consisting of the single key
`"a--b--c--d.dead"` (a tombstone whose live key is absent, as eventual
consistency can produce), the first id of the group is the tombstone itself,
it is installed as the group's candidate, and it is yielded. -/
theorem jList_claim_false :
    jList [['a', '-', '-', 'b', '-', '-', 'c', '-', '-', 'd', '.', 'd', 'e', 'a', 'd']] =
      some [['a', '-', '-', 'b', '-', '-', 'c', '-', '-', 'd', '.', 'd', 'e', 'a', 'd']] ∧
    endsDead ['a', '-', '-', 'b', '-', '-', 'c', '-', '-', 'd', '.', 'd', 'e', 'a', 'd'] =
      true := by
  refine ⟨by decide, by decide⟩

/-- **C4 (amended).** On a lexically ordered listing of journal manifest
keys that decomposes into per-`range_prefix` group-blocks (as a sorted
listing of well-formed 4-part ids does) — consecutive blocks with distinct
range prefixes, each block's keys sharing its range prefix, every tombstone
key preceded in its block by its live id, live and tombstoned ids distinct
within a block — `BaseJournal.list` succeeds and yields exactly one id per
block having a surviving id and none for a fully-tombstoned block: the
lexically greatest id in the block with no corresponding `".dead"` key in
the listing; the yields come in listing (range-prefix) order, and no
yielded id is a tombstone key. -/
theorem journal_list_spec (groups : List GBlock)
    (hok : ∀ g ∈ groups, GBok g)
    (hchain : List.Chain' (fun g g' : GBlock => g.1 ≠ g'.1) groups)
    (hsort : ∀ g ∈ groups, List.Pairwise (fun a b => keyLt a b = true) (gListing g)) :
    jList (groups.flatMap gListing) =
      some (groups.filterMap (fun g => (groupSurv [] g.2).getLast?)) ∧
    (∀ y ∈ groups.filterMap (fun g => (groupSurv [] g.2).getLast?), endsDead y = false) ∧
    (∀ g ∈ groups, ∀ y, (groupSurv [] g.2).getLast? = some y →
      ∀ x ∈ groupSurv [] g.2, keyLt x y = true ∨ x = y) := by
  refine ⟨?_, ?_, ?_⟩
  · rw [jList, jListGo_groups groups none [] hok hchain (by simp)]
    rfl
  · intro y hy
    rcases List.mem_filterMap.mp hy with ⟨g, hg, hfg⟩
    have hy2 : y ∈ groupSurv [] g.2 := getLast?_mem_self hfg
    have hy3 : y ∈ entLive g.2 := by
      rcases List.mem_filter.mp hy2 with ⟨hmem, -⟩
      simpa using hmem
    rcases List.mem_map.mp hy3 with ⟨u, hu, ha⟩
    have := (hok g hg).2.2.1 u (List.mem_filter.mp hu).1
    exact ha ▸ endsDead_false this
  · intro g hg y hlast x hx
    have hsub : List.Sublist (groupSurv [] g.2) (gListing g) := by
      rw [groupSurv]
      exact ((List.filter_sublist _).trans (by simpa using entLive_sublist g.2))
    exact pairwise_getLast?_max ((hsort g hg).sublist hsub) hlast x hx

/-- A two-block listing used to instantiate `journal_list_spec`. -/
def wG1 : GBlock :=
  (['a', '-', '-', 'b'], [(['a', '-', '-', 'b', '-', '-', '1', '-', '-', 'x'], false)])

def wG2 : GBlock :=
  (['a', '-', '-', 'c'],
   [(['a', '-', '-', 'c', '-', '-', '1', '-', '-', 'y'], false),
    (['a', '-', '-', 'c', '-', '-', '2', '-', '-', 'z'], false),
    (['a', '-', '-', 'c', '-', '-', '2', '-', '-', 'z'], true)])

/-- Witness for the amended `BaseJournal.list` theorem, at a listing of two
blocks: a single-id block and a block whose newest id is tombstoned. -/
theorem journal_list_spec_witness :
    jList ([wG1, wG2].flatMap gListing) =
      some ([wG1, wG2].filterMap (fun g => (groupSurv [] g.2).getLast?)) ∧
    (∀ y ∈ [wG1, wG2].filterMap (fun g => (groupSurv [] g.2).getLast?),
      endsDead y = false) ∧
    (∀ g ∈ [wG1, wG2], ∀ y, (groupSurv [] g.2).getLast? = some y →
      ∀ x ∈ groupSurv [] g.2, keyLt x y = true ∨ x = y) :=
  journal_list_spec [wG1, wG2]
    (by
      intro g hg
      rcases List.mem_cons.mp hg with rfl | hg
      · exact ⟨by decide, by decide, by decide, by decide, by decide, by decide⟩
      rcases List.mem_cons.mp hg with rfl | hg
      · exact ⟨by decide, by decide, by decide, by decide, by decide, by decide⟩
      · simp at hg)
    (List.chain'_cons.mpr ⟨by decide, List.chain'_singleton _⟩)
    (by
      intro g hg
      rcases List.mem_cons.mp hg with rfl | hg
      · decide
      rcases List.mem_cons.mp hg with rfl | hg
      · decide
      · simp at hg)

/-! ### The stale engine `FlashFlood.put` (`__init__.py` lines 62-75) -/

/-- `_JournalID.make(timestamp, None, blob_id)`: `end_timestamp or "new"` is
`"new"`, joined with the `"--"` delimiter. -/
def jidMake3 (ts blobId : Str) : Str :=
  ts ++ dd ++ ['n', 'e', 'w'] ++ dd ++ blobId

/-- The four keys `put` writes through `_upload_journal(..., is_new=True)`,
under `root_prefix`: the blob, the journal manifest, the `new/` marker and
the per-event index object. Metadata carried: `journal_id`. -/
def ffPut (rootPfx : Str) (b : Bucket) (eventId ts blobId : Str) : Option Bucket :=
  if decide (dd <:+: eventId) then none
  else
    let jid := jidMake3 ts blobId
    let blobKey := rootPfx ++ ['/', 'b', 'l', 'o', 'b', 's', '/'] ++ blobId
    let jKey := rootPfx ++ ['/', 'j', 'o', 'u', 'r', 'n', 'a', 'l', 's', '/'] ++ jid
    let newKey := rootPfx ++ ['/', 'n', 'e', 'w', '/'] ++ jid
    let ixKey := rootPfx ++ ['/', 'i', 'n', 'd', 'e', 'x', '/'] ++ eventId
    some (putObj (putObj (putObj (putObj b blobKey jid) jKey jid) newKey jid) ixKey jid)

/-- `event_exists(event_id)` as the spec and `_lookup_event` define it: the
listing under the index prefix for `event_id` is non-empty. -/
def eventExists (rootPfx : Str) (b : Bucket) (eventId : Str) : Bool :=
  !(listPfxB b (rootPfx ++ ['/', 'i', 'n', 'd', 'e', 'x', '/'] ++ eventId)).isEmpty

/-- `put` as the SPEC describes it (spec-side definition, for comparison
with `ffPut`): reject a delimiter in `event_id`; reject with `EventExists`
(modelled as `none`) an `event_id` already present in the index; only then
write. -/
def specPut (rootPfx : Str) (b : Bucket) (eventId ts blobId : Str) : Option Bucket :=
  if decide (dd <:+: eventId) then none
  else if eventExists rootPfx b eventId then none
  else ffPut rootPfx b eventId ts blobId

/-- **C8.** The claim's second failure case is absent from the code:
whenever `event_id` is free of `"--"` but is already present in the index,
`FlashFlood.put` in `src/flashflood/__init__.py` still succeeds and writes
(it performs no `event_exists` check and the module defines no
`FlashFloodEventExistsError`), while the put the spec describes fails with
`EventExists` on the same state and input. -/
theorem put_missing_eventExists_check (rootPfx : Str) (b : Bucket)
    (eventId ts blobId : Str)
    (hno : decide (dd <:+: eventId) = false)
    (hex : eventExists rootPfx b eventId = true) :
    (ffPut rootPfx b eventId ts blobId).isSome = true ∧
    specPut rootPfx b eventId ts blobId = none := by
  constructor
  · simp [ffPut, hno]
  · simp [specPut, hno, hex]

/-- The bucket state after a first `put` of event id `"e"` from an empty
bucket. -/
def wB8 : Bucket := (ffPut ['r'] [] ['e'] ['t'] ['b']).getD []

/-- Witness: after a first `put` of `"e"`, the id is indexed, yet a second
`put` of `"e"` succeeds where the spec's put fails. -/
theorem put_missing_eventExists_check_witness :
    decide (dd <:+: ['e']) = false ∧ eventExists ['r'] wB8 ['e'] = true ∧
    ((ffPut ['r'] wB8 ['e'] ['t'] ['c']).isSome = true ∧
      specPut ['r'] wB8 ['e'] ['t'] ['c'] = none) :=
  ⟨by decide, by decide,
    put_missing_eventExists_check ['r'] wB8 ['e'] ['t'] ['c'] (by decide) (by decide)⟩

end FF
